import Mathlib

/-!
Verification development for the bookmark-xp-explorer extension.

The core of the extension (fullpage script embedded in
`src/background/service-worker.js`, plus the popup variant in
`src/popup/popup.js`) manipulates the browser's bookmark store through an
asynchronous adapter (`chrome.bookmarks`), keeps a bounded undo stack of
inverse operations, per-pane navigation state, and resolves drag-and-drop
pointer coordinates into drop targets and positions.

The bookmark store itself is an external collaborator (section 6 of the
design document): a tree of nodes, each a bookmark (leaf, with url) or a
folder (with an ordered children list); every node has a stable id never
reused after deletion, and `index` is its zero-based position among its
siblings.  We model the store shallowly: `BTree` is the node tree, `Store`
carries the tree and a fresh-id counter, and the adapter operations
(`bmCreate`, `bmRemove`, `bmRemoveTree`, `bmMove`, `bmUpdate`) are modelled
from that contract, failing (returning `none` / `false`) when a referenced
id does not resolve, as the design document states the adapter does.

All functions of the extension itself (`pushUndoAction`, `performUndo`,
`restoreBookmarkTree`, `deleteItem`, `pasteItem`, `confirmRename`,
`confirmNewFolder`, `navigatePane`, `getDropPosition`,
`findNearbyDropTarget`, the drop handler's index arithmetic) are translated
directly from the JavaScript source.
-/

/-- A node of the bookmark store: a bookmark leaf (with url) or a folder
with an ordered children list.  Ids are modelled as naturals. -/
inductive BTree where
  | bookmark (id : Nat) (title : String) (url : String)
  | folder (id : Nat) (title : String) (children : List BTree)
deriving Repr

mutual

def beqT : BTree → BTree → Bool
  | .bookmark i t u, .bookmark j s v => i == j && t == s && u == v
  | .folder i t cs, .folder j s ds => i == j && t == s && beqL cs ds
  | _, _ => false

def beqL : List BTree → List BTree → Bool
  | [], [] => true
  | c :: cs, d :: ds => beqT c d && beqL cs ds
  | _, _ => false

end

mutual

theorem beqT_iff : ∀ a b : BTree, beqT a b = true ↔ a = b
  | .bookmark _ _ _, .bookmark _ _ _ => by simp [beqT, and_assoc]
  | .bookmark _ _ _, .folder _ _ _ => by simp [beqT]
  | .folder _ _ _, .bookmark _ _ _ => by simp [beqT]
  | .folder _ _ cs, .folder _ _ ds => by simp [beqT, beqL_iff cs ds, and_assoc]

theorem beqL_iff : ∀ a b : List BTree, beqL a b = true ↔ a = b
  | [], [] => by simp [beqL]
  | [], _ :: _ => by simp [beqL]
  | _ :: _, [] => by simp [beqL]
  | c :: cs, d :: ds => by simp [beqL, beqT_iff c d, beqL_iff cs ds]

end

instance : DecidableEq BTree := fun a b => decidable_of_iff _ (beqT_iff a b)

/-- The id of a node. -/
def idOf : BTree → Nat
  | .bookmark i _ _ => i
  | .folder i _ _ => i

/-- The title of a node. -/
def titleOf : BTree → String
  | .bookmark _ t _ => t
  | .folder _ t _ => t

/-- The url of a node (`none` for folders, as in the store contract). -/
def urlOf : BTree → Option String
  | .bookmark _ _ u => some u
  | .folder _ _ _ => none

mutual

/-- All ids occurring in a tree (root included), in preorder. -/
def allIds : BTree → List Nat
  | .bookmark i _ _ => [i]
  | .folder i _ cs => i :: allIdsL cs

def allIdsL : List BTree → List Nat
  | [] => []
  | c :: cs => allIds c ++ allIdsL cs

end

mutual

/-- Content-and-structure view of a tree: the same tree with every id
zeroed.  Two trees are "structurally and content-equal" (same titles, urls
and relative sibling order, ids ignored) iff their `strip`s are equal. -/
def strip : BTree → BTree
  | .bookmark _ t u => .bookmark 0 t u
  | .folder _ t cs => .folder 0 t (stripL cs)

def stripL : List BTree → List BTree
  | [] => []
  | c :: cs => strip c :: stripL cs

end

mutual

/-- `chrome.bookmarks.getSubTree` (and, combined with `locate`, `get`):
the full subtree rooted at the node with the given id, if present. -/
def findSub : BTree → Nat → Option BTree
  | .bookmark i t u, id => if i = id then some (.bookmark i t u) else none
  | .folder i t cs, id => if i = id then some (.folder i t cs) else findSubL cs id

def findSubL : List BTree → Nat → Option BTree
  | [], _ => none
  | c :: cs, id =>
    match findSub c id with
    | some r => some r
    | none => findSubL cs id

end

/-- Whether a node with the given id occurs in the tree. -/
def containsId (t : BTree) (id : Nat) : Bool :=
  (findSub t id).isSome

mutual

/-- The store's bookkeeping for a non-root node: its parent folder's id, its
index (zero-based position among its siblings) and its full subtree.  This
is the information `chrome.bookmarks.get`/`getSubTree` expose. -/
def locate : BTree → Nat → Option (Nat × Nat × BTree)
  | .bookmark _ _ _, _ => none
  | .folder i _ cs, id => locateL i 0 cs id

def locateL : Nat → Nat → List BTree → Nat → Option (Nat × Nat × BTree)
  | _, _, [], _ => none
  | g, k, c :: cs, id =>
    if idOf c = id then some (g, k, c)
    else
      match locate c id with
      | some r => some r
      | none => locateL g (k + 1) cs id

end

mutual

/-- Removal of the node with the given id (with its whole subtree) from a
tree; the store re-numbers the remaining siblings, which the positional
children list gives for free.  `none` when the id does not occur strictly
below the root. -/
def removeById : BTree → Nat → Option BTree
  | .bookmark _ _ _, _ => none
  | .folder i t cs, id =>
    match removeByIdL cs id with
    | some cs2 => some (.folder i t cs2)
    | none => none

def removeByIdL : List BTree → Nat → Option (List BTree)
  | [], _ => none
  | c :: cs, id =>
    if idOf c = id then some cs
    else
      match removeById c id with
      | some c2 => some (c2 :: cs)
      | none =>
        match removeByIdL cs id with
        | some cs2 => some (c :: cs2)
        | none => none

end

/-- List insertion at a position, clamped to the end (the store clamps an
out-of-range index to an append). -/
def insertAt : Nat → BTree → List BTree → List BTree
  | 0, a, l => a :: l
  | _ + 1, a, [] => [a]
  | n + 1, a, b :: l => b :: insertAt n a l

/-- Insertion into a children list: at the given index, or appended at the
end when the creating call supplies no index. -/
def insertChild (idx : Option Nat) (nd : BTree) (cs : List BTree) : List BTree :=
  match idx with
  | none => cs ++ [nd]
  | some i => insertAt i nd cs

mutual

/-- Insertion of a new node under the folder with id `p` (at the given
optional index); `none` when `p` does not resolve to a node able to receive
children. -/
def insertUnder : BTree → Nat → Option Nat → BTree → Option BTree
  | .bookmark _ _ _, _, _, _ => none
  | .folder i t cs, p, idx, nd =>
    if i = p then some (.folder i t (insertChild idx nd cs))
    else
      match insertUnderL cs p idx nd with
      | some cs2 => some (.folder i t cs2)
      | none => none

def insertUnderL : List BTree → Nat → Option Nat → BTree → Option (List BTree)
  | [], _, _, _ => none
  | c :: cs, p, idx, nd =>
    match insertUnder c p idx nd with
    | some c2 => some (c2 :: cs)
    | none =>
      match insertUnderL cs p idx nd with
      | some cs2 => some (c :: cs2)
      | none => none

end

mutual

/-- Pure description of what a full recursive recreate of a captured
subtree produces: the same tree relabelled with fresh consecutive ids,
the root receiving the first fresh id, children numbered in preorder.
Returns the relabelled tree and the next unused id. -/
def reify : Nat → BTree → BTree × Nat
  | n, .bookmark _ t u => (.bookmark n t u, n + 1)
  | n, .folder _ t cs =>
    let r := reifyL (n + 1) cs
    (.folder n t r.1, r.2)

def reifyL : Nat → List BTree → List BTree × Nat
  | n, [] => ([], n)
  | n, c :: cs =>
    let r1 := reify n c
    let r2 := reifyL r1.2 cs
    (r1.1 :: r2.1, r2.2)

end

/-- The bookmark store: the root folder tree plus the next fresh id.
The store contract guarantees ids are unique and never reused, which the
counter models. -/
structure Store where
  tree : BTree
  nextId : Nat
deriving DecidableEq, Repr

/-- Store well-formedness: all ids distinct, all below the fresh counter. -/
def WF (s : Store) : Prop :=
  (allIds s.tree).Nodup ∧ ∀ a ∈ allIds s.tree, a < s.nextId

instance (s : Store) : Decidable (WF s) := by
  unfold WF; infer_instance

/-- `chrome.bookmarks.create({parentId, title, url?, index?})`: creates a
bookmark (when a url is given) or an empty folder, at the given index of the
parent's children (appended when no index is given); fails when the parent
does not resolve.  Returns the new node's id on success. -/
def bmCreate (s : Store) (parentId : Nat) (title : String) (url : Option String)
    (idx : Option Nat) : Store × Option Nat :=
  let nd : BTree :=
    match url with
    | some u => .bookmark s.nextId title u
    | none => .folder s.nextId title []
  match insertUnder s.tree parentId idx nd with
  | some t2 => (⟨t2, s.nextId + 1⟩, some s.nextId)
  | none => (s, none)

/-- `chrome.bookmarks.remove(id)`: removes a leaf (bookmark or empty
folder); fails on a missing id or a folder that still has children. -/
def bmRemove (s : Store) (id : Nat) : Store × Bool :=
  match findSub s.tree id with
  | some (.folder _ _ (_ :: _)) => (s, false)
  | _ =>
    match removeById s.tree id with
    | some t2 => (⟨t2, s.nextId⟩, true)
    | none => (s, false)

/-- `chrome.bookmarks.removeTree(id)`: removes the whole subtree. -/
def bmRemoveTree (s : Store) (id : Nat) : Store × Bool :=
  match removeById s.tree id with
  | some t2 => (⟨t2, s.nextId⟩, true)
  | none => (s, false)

/-- `chrome.bookmarks.move(id, {parentId, index?})`: detaches the subtree
and re-inserts it under the destination parent; fails atomically when
either id fails to resolve (in particular when the destination lies inside
the moved subtree). -/
def bmMove (s : Store) (id : Nat) (parentId : Nat) (idx : Option Nat) :
    Store × Bool :=
  match locate s.tree id with
  | none => (s, false)
  | some (_, _, sub) =>
    match removeById s.tree id with
    | none => (s, false)
    | some t1 =>
      match insertUnder t1 parentId idx sub with
      | some t2 => (⟨t2, s.nextId⟩, true)
      | none => (s, false)

mutual

def updateTitle : BTree → Nat → String → Option BTree
  | .bookmark i _ u, id, s => if i = id then some (.bookmark i s u) else none
  | .folder i t cs, id, s =>
    if i = id then some (.folder i s cs)
    else
      match updateTitleL cs id s with
      | some cs2 => some (.folder i t cs2)
      | none => none

def updateTitleL : List BTree → Nat → String → Option (List BTree)
  | [], _, _ => none
  | c :: cs, id, s =>
    match updateTitle c id s with
    | some c2 => some (c2 :: cs)
    | none =>
      match updateTitleL cs id s with
      | some cs2 => some (c :: cs2)
      | none => none

end

/-- `chrome.bookmarks.update(id, {title})`: retitles a node; fails on a
missing id. -/
def bmUpdate (s : Store) (id : Nat) (title : String) : Store × Bool :=
  match updateTitle s.tree id title with
  | some t2 => (⟨t2, s.nextId⟩, true)
  | none => (s, false)

example :
    insertUnder (.folder 0 "r" [.folder 1 "a" []]) 1 (some 0) (.bookmark 2 "b" "u")
      = some (.folder 0 "r" [.folder 1 "a" [.bookmark 2 "b" "u"]]) := by decide

example :
    bmMove ⟨.folder 0 "r" [.folder 1 "a" [], .bookmark 2 "b" "u"], 3⟩ 2 1 (some 0)
      = (⟨.folder 0 "r" [.folder 1 "a" [.bookmark 2 "b" "u"]], 3⟩, true) := by decide

/-!  ## Undo action log

Translated from the Undo System section of the fullpage script
(`pushUndoAction`, `performUndo`, `captureBookmarkTree`,
`restoreBookmarkTree`) and the mutation sites that push actions
(`deleteItem`, `confirmNewFolder`, `confirmRename`, `pasteItem`, the drop
handler).  Each action also carries a creation timestamp in the source;
the design document marks it diagnostic-only (never read), so it is not
modelled. -/

/-- An undo action: the inverse-operation descriptor pushed after each
successful mutation. -/
inductive UndoAction where
  | delete (data : BTree) (parentId : Nat) (index : Nat)
  | move (itemId : Nat) (originalParentId : Nat) (originalIndex : Nat)
  | rename (itemId : Nat) (originalTitle : String)
  | create (createdId : Nat)
  | paste (createdId : Nat)
deriving DecidableEq, Repr

/-- `MAX_UNDO_STACK_SIZE` in the source. -/
def MAX_UNDO_STACK_SIZE : Nat := 50

/-- `pushUndoAction(action)`: `state.undoStack.push(action)` followed by
`if (state.undoStack.length > MAX_UNDO_STACK_SIZE) state.undoStack.shift()`. -/
def pushUndoAction (stack : List UndoAction) (action : UndoAction) : List UndoAction :=
  let st := stack ++ [action]
  if st.length > MAX_UNDO_STACK_SIZE then st.drop 1 else st

mutual

/-- `restoreBookmarkTree(node, parentId, index)`: pre-order recreate of a
captured subtree — create the node first (url only for bookmarks), then
recurse into the captured children with the new id as parent and the
child's position as index.  A failing create rejects; creates already
performed stay in the store (the JavaScript exception aborts the loop). -/
def restoreBookmarkTree (s : Store) (node : BTree) (parentId : Nat) (index : Nat) :
    Store × Option Nat :=
  match node with
  | .bookmark _ t u => bmCreate s parentId t (some u) (some index)
  | .folder _ t cs =>
    match bmCreate s parentId t none (some index) with
    | (s1, none) => (s1, none)
    | (s1, some newId) =>
      match restoreChildren s1 cs newId 0 with
      | (s2, true) => (s2, some newId)
      | (s2, false) => (s2, none)

/-- The `for (let i = 0; i < node.children.length; i++)` loop of
`restoreBookmarkTree`. -/
def restoreChildren (s : Store) (cs : List BTree) (parentId : Nat) (i : Nat) :
    Store × Bool :=
  match cs with
  | [] => (s, true)
  | c :: rest =>
    match restoreBookmarkTree s c parentId i with
    | (s1, some _) => restoreChildren s1 rest parentId (i + 1)
    | (s1, none) => (s1, false)

end

/-- The body of `performUndo`'s `switch (action.type)`, returning the
success toast message, or `none` when the inverse store call rejects (the
`catch` branch).  In the `create`/`paste` cases the source re-reads the
node from the store to decide `remove` vs `removeTree`; per the adapter
contract, `get` on a no-longer-existing id rejects. -/
def applyUndo (s : Store) (action : UndoAction) : Store × Option String :=
  match action with
  | .delete data parentId index =>
    match restoreBookmarkTree s data parentId index with
    | (s1, some _) => (s1, some ("Restored \"" ++ titleOf data ++ "\""))
    | (s1, none) => (s1, none)
  | .move itemId originalParentId originalIndex =>
    match bmMove s itemId originalParentId (some originalIndex) with
    | (s1, true) => (s1, some "Move undone")
    | (s1, false) => (s1, none)
  | .rename itemId originalTitle =>
    match bmUpdate s itemId originalTitle with
    | (s1, true) => (s1, some "Rename undone")
    | (s1, false) => (s1, none)
  | .create createdId =>
    match findSub s.tree createdId with
    | none => (s, none)
    | some nd =>
      match (if (urlOf nd).isSome then bmRemove s createdId else bmRemoveTree s createdId) with
      | (s1, true) => (s1, some "Creation undone")
      | (s1, false) => (s1, none)
  | .paste createdId =>
    match findSub s.tree createdId with
    | none => (s, none)
    | some nd =>
      match (if (urlOf nd).isSome then bmRemove s createdId else bmRemoveTree s createdId) with
      | (s1, true) => (s1, some "Paste undone")
      | (s1, false) => (s1, none)

/-- Outcome reported by `performUndo` through toasts. -/
inductive UndoOutcome where
  | nothingToUndo
  | success (msg : String)
  | failure
deriving DecidableEq, Repr

/-- `performUndo()`: empty stack → the informational "Nothing to undo"
toast and no store call; otherwise `state.undoStack.pop()` first, then the
inverse store operation, with the `catch` branch reporting failure (the
popped action is never re-pushed). -/
def performUndo (s : Store) (stack : List UndoAction) :
    Store × List UndoAction × UndoOutcome :=
  match stack.getLast? with
  | none => (s, stack, .nothingToUndo)
  | some action =>
    let rest := stack.dropLast
    match applyUndo s action with
    | (s1, some msg) => (s1, rest, .success msg)
    | (s1, none) => (s1, rest, .failure)

/-- Iterated `performUndo`, for the drain-the-stack property. -/
def performUndoN : Nat → Store × List UndoAction → Store × List UndoAction
  | 0, p => p
  | n + 1, p =>
    let r := performUndo p.1 p.2
    performUndoN n (r.1, r.2.1)

/-- `deleteItem(id)` (fullpage script): read the node, ask for
confirmation, capture the full subtree with `captureBookmarkTree`, record
`parentId`/`index`, `removeTree` for folders and `remove` for bookmarks,
and only then push the `delete` undo action.  A rejecting store call (the
`catch` branch) pushes nothing. -/
def deleteItem (s : Store) (stack : List UndoAction) (id : Nat) (confirmed : Bool) :
    Store × List UndoAction :=
  match locate s.tree id with
  | none => (s, stack)
  | some (parentId, index, fullData) =>
    if confirmed then
      match (if (urlOf fullData).isSome then bmRemove s id else bmRemoveTree s id) with
      | (s1, true) => (s1, pushUndoAction stack (.delete fullData parentId index))
      | (_, false) => (s, stack)
    else (s, stack)

/-- Executable model of JavaScript `String.prototype.trim()`: strip
leading and trailing whitespace. -/
def jsTrim (s : String) : String :=
  ⟨((s.data.dropWhile Char.isWhitespace).reverse.dropWhile Char.isWhitespace).reverse⟩

/-- `confirmNewFolder()` (fullpage script): trim the dialog input, bail out
on an empty title, create the folder under the pane's current folder and
push a `create` action recording the new id. -/
def confirmNewFolder (s : Store) (stack : List UndoAction) (currentFolderId : Nat)
    (rawTitle : String) : Store × List UndoAction × Option Nat :=
  let title := jsTrim rawTitle
  if title = "" then (s, stack, none)
  else
    match bmCreate s currentFolderId title none none with
    | (s1, some createdId) => (s1, pushUndoAction stack (.create createdId), some createdId)
    | (s1, none) => (s1, stack, none)

/-- Outcome of `confirmRename`, distinguishing the paths of the source:
empty input (early return), unchanged title (skip), a performed rename and
the `catch` branch. -/
inductive RenameOutcome where
  | noInput
  | skipped
  | renamed
  | failed
deriving DecidableEq, Repr

/-- `confirmRename()`: trim the input, bail out when empty, read the
current title, skip entirely when it equals the new title, otherwise
update and push a `rename` action capturing the original title. -/
def confirmRename (s : Store) (stack : List UndoAction) (id : Nat) (rawInput : String) :
    Store × List UndoAction × RenameOutcome :=
  let newTitle := jsTrim rawInput
  if newTitle = "" then (s, stack, .noInput)
  else
    match findSub s.tree id with
    | none => (s, stack, .failed)
    | some node =>
      if titleOf node = newTitle then (s, stack, .skipped)
      else
        match bmUpdate s id newTitle with
        | (s1, true) => (s1, pushUndoAction stack (.rename id (titleOf node)), .renamed)
        | (s1, false) => (s1, stack, .failed)

/-- `pasteItem(paneNum)` with a copy clipboard entry: read the original;
a bookmark is recreated with the same title and url, a folder shallowly as
a single empty folder titled with the original title plus a copy suffix;
on success a `paste` action recording only the created id is pushed. -/
def pasteItem (s : Store) (stack : List UndoAction) (clipboardId : Nat)
    (targetFolderId : Nat) : Store × List UndoAction × Bool :=
  match findSub s.tree clipboardId with
  | none => (s, stack, false)
  | some original =>
    match
      (match urlOf original with
       | some u => bmCreate s targetFolderId (titleOf original) (some u) none
       | none => bmCreate s targetFolderId (titleOf original ++ " (copy)") none none)
    with
    | (s1, some createdId) => (s1, pushUndoAction stack (.paste createdId), true)
    | (s1, none) => (s1, stack, false)

/-!  ## Pane navigation (fullpage script: `navigatePane`, `handlePaneAction`) -/

/-- Per-pane navigation state (`state.panes[n]`). -/
structure PaneState where
  currentFolderId : String
  history : List String
  historyIndex : Nat
  selectedItems : List String
deriving DecidableEq, Repr

/-- `navigatePane(paneNum, folderId, addToHistory)`: set the current
folder, clear the selection; when `addToHistory`, truncate the history to
`historyIndex + 1`, append the folder id and point `historyIndex` at the
last entry. -/
def navigatePane (p : PaneState) (folderId : String) (addToHistory : Bool) : PaneState :=
  let p1 := { p with currentFolderId := folderId, selectedItems := [] }
  if addToHistory then
    let h := p1.history.take (p1.historyIndex + 1) ++ [folderId]
    { p1 with history := h, historyIndex := h.length - 1 }
  else p1

/-- `handlePaneAction(n, 'back')`: guarded decrement of `historyIndex`,
then a history replay through `navigatePane(..., false)`. -/
def paneBack (p : PaneState) : PaneState :=
  if 0 < p.historyIndex then
    let i := p.historyIndex - 1
    navigatePane { p with historyIndex := i } (p.history.getD i "") false
  else p

/-- `handlePaneAction(n, 'forward')`: guarded increment of `historyIndex`,
then a history replay through `navigatePane(..., false)`. -/
def paneForward (p : PaneState) : PaneState :=
  if p.historyIndex + 1 < p.history.length then
    let i := p.historyIndex + 1
    navigatePane { p with historyIndex := i } (p.history.getD i "") false
  else p

/-- `handlePaneAction(n, 'up')`: look up the current folder's parent in the
store (no-op at the root id `'0'` or when the node has no parent) and
navigate there, adding to history.  The parent lookup is abstracted as a
function, the store being external. -/
def paneUp (parentOf : String → Option String) (p : PaneState) : PaneState :=
  if p.currentFolderId ≠ "0" then
    match parentOf p.currentFolderId with
    | some q => navigatePane p q true
    | none => p
  else p

/-- A user navigation operation on one pane. -/
inductive NavOp where
  | navigate (folderId : String) (addToHistory : Bool)
  | back
  | forward
  | up
deriving DecidableEq, Repr

/-- Dispatch of one navigation operation. -/
def applyNavOp (parentOf : String → Option String) (p : PaneState) : NavOp → PaneState
  | .navigate f add => navigatePane p f add
  | .back => paneBack p
  | .forward => paneForward p
  | .up => paneUp parentOf p

/-- A whole user session of navigation operations. -/
def applyNavOps (parentOf : String → Option String) (p : PaneState)
    (ops : List NavOp) : PaneState :=
  ops.foldl (applyNavOp parentOf) p

/-- The pane-history invariant: `historyIndex` is a valid index into
`history`. -/
def paneValid (p : PaneState) : Prop :=
  p.historyIndex < p.history.length

instance (p : PaneState) : Decidable (paneValid p) := by
  unfold paneValid; infer_instance

/-!  ## Drop target resolution (fullpage script `setupDragAndDrop`) -/

/-- Relative drop position. -/
inductive DropPos where
  | before
  | after
  | into
deriving DecidableEq, Repr

/-- `getDropPosition(e, target)`: classify by the pointer's vertical
position inside the target's bounding box.  Coordinates are modelled as
rationals; the computed quotient is `(e.clientY - rect.top) / rect.height`
exactly as in the source. -/
def getDropPosition (isFolder : Bool) (clientY top height : ℚ) : DropPos :=
  let relativeY := clientY - top
  let frac := relativeY / height
  if isFolder then
    if frac < (1 : ℚ) / 4 then .before
    else if frac > (3 : ℚ) / 4 then .after
    else .into
  else if frac < (1 : ℚ) / 2 then .before else .after

/-- The destination-index arithmetic of the fullpage drop handler for a
reorder (`before`/`after`) drop: start from the target's index, add one
for `after`, then subtract one when moving within the same parent from a
lower original index. -/
def reorderDestIndex (dropPosition : DropPos) (originalParentId targetParentId : Nat)
    (originalIndex targetIndexStart : Nat) : Nat :=
  let t1 := if dropPosition = .after then targetIndexStart + 1 else targetIndexStart
  if originalParentId = targetParentId ∧ originalIndex < t1 then t1 - 1 else t1

/-- `searchOffsets` of the fullpage `findNearbyDropTarget`: the exact
position, a 12px cross, 12px diagonals, a 24px cross, then a 24px diagonal
ring — 17 probe points. -/
def searchOffsets : List (Int × Int) :=
  [(0, 0),
   (0, -12), (0, 12), (-12, 0), (12, 0),
   (-12, -12), (12, -12), (-12, 12), (12, 12),
   (0, -24), (0, 24), (-24, 0), (24, 0),
   (-24, -24), (24, -24), (-24, 24), (24, 24)]

/-- `searchOffsets` of the popup-script `findNearbyDropTarget`: the same
sequence without the final 24px diagonal ring — 13 probe points. -/
def searchOffsetsPopup : List (Int × Int) :=
  [(0, 0),
   (0, -12), (0, 12), (-12, 0), (12, 0),
   (-12, -12), (12, -12), (-12, 12), (12, 12),
   (0, -24), (0, 24), (-24, 0), (24, 0)]

/-- The probe loop of `findNearbyDropTarget` over a given offset list:
`document.elementFromPoint` followed by `closest('.content-item,
.tree-item')` is abstracted as `elementAt`, returning the id of the
candidate row at a point (or `none`); the first probe landing on a
candidate whose id differs from the excluded (dragged) id wins. -/
def probeOffsets (elementAt : Int × Int → Option String) (x y : Int)
    (excludeId : String) : List (Int × Int) → Option String
  | [] => none
  | (dx, dy) :: rest =>
    match elementAt (x + dx, y + dy) with
    | some cid => if cid ≠ excludeId then some cid else probeOffsets elementAt x y excludeId rest
    | none => probeOffsets elementAt x y excludeId rest

/-- `findNearbyDropTarget(x, y, excludeId)` of the fullpage script. -/
def findNearbyDropTarget (elementAt : Int × Int → Option String) (x y : Int)
    (excludeId : String) : Option String :=
  probeOffsets elementAt x y excludeId searchOffsets

/-- `findNearbyDropTarget(x, y, excludeId)` of the popup script. -/
def findNearbyDropTargetPopup (elementAt : Int × Int → Option String) (x y : Int)
    (excludeId : String) : Option String :=
  probeOffsets elementAt x y excludeId searchOffsetsPopup

/-!  ## Auxiliary lemmas about the store model -/

/-- Ids occurring strictly below the root of a tree. -/
def strictIds : BTree → List Nat
  | .bookmark _ _ _ => []
  | .folder _ _ cs => allIdsL cs

theorem allIds_eq_cons (t : BTree) : allIds t = idOf t :: strictIds t := by
  cases t <;> simp [allIds, idOf, strictIds]

mutual

theorem findSub_eq_none_iff : ∀ (t : BTree) (id : Nat),
    findSub t id = none ↔ id ∉ allIds t
  | .bookmark i ti u, id => by
    by_cases h : i = id
    · simp [findSub, allIds, h]
    · simp [findSub, allIds, h]
      omega
  | .folder i ti cs, id => by
    by_cases h : i = id <;>
      simp [findSub, allIds, h, findSubL_eq_none_iff cs id]
    omega

theorem findSubL_eq_none_iff : ∀ (cs : List BTree) (id : Nat),
    findSubL cs id = none ↔ id ∉ allIdsL cs
  | [], id => by simp [findSubL, allIdsL]
  | c :: cs, id => by
    cases hc : findSub c id with
    | some r =>
      have : ¬(findSub c id = none) := by simp [hc]
      rw [findSub_eq_none_iff] at this
      simp only [not_not] at this
      simp [findSubL, hc, allIdsL]
      exact fun hn => absurd this hn
    | none =>
      have h1 := (findSub_eq_none_iff c id).mp hc
      simp [findSubL, hc, allIdsL, findSubL_eq_none_iff cs id, h1]

end

mutual

theorem locate_eq_none_iff : ∀ (t : BTree) (id : Nat),
    locate t id = none ↔ id ∉ strictIds t
  | .bookmark _ _ _, id => by simp [locate, strictIds]
  | .folder i ti cs, id => by
    simp [locate, strictIds, locateL_eq_none_iff i 0 cs id]

theorem locateL_eq_none_iff : ∀ (g k : Nat) (cs : List BTree) (id : Nat),
    locateL g k cs id = none ↔ id ∉ allIdsL cs
  | g, k, [], id => by simp [locateL, allIdsL]
  | g, k, c :: cs, id => by
    by_cases h : idOf c = id
    · constructor
      · intro hc
        simp [locateL, h] at hc
      · intro hmem
        exfalso
        apply hmem
        simp [allIdsL, allIds_eq_cons c, h]
    · cases hc : locate c id with
      | some r =>
        have : ¬(locate c id = none) := by simp [hc]
        rw [locate_eq_none_iff] at this
        simp only [not_not] at this
        constructor
        · intro hcontra
          simp [locateL, h, hc] at hcontra
        · intro hmem
          exfalso
          apply hmem
          simp [allIdsL, allIds_eq_cons c]
          right; left; exact this
      | none =>
        have h1 := (locate_eq_none_iff c id).mp hc
        have h2 := locateL_eq_none_iff g (k + 1) cs id
        have hne : ¬id = idOf c := fun e => h e.symm
        simp [locateL, h, hc, h2, allIdsL, allIds_eq_cons c]
        tauto

end

mutual

theorem removeById_eq_none_iff : ∀ (t : BTree) (id : Nat),
    removeById t id = none ↔ id ∉ strictIds t
  | .bookmark _ _ _, id => by simp [removeById, strictIds]
  | .folder i ti cs, id => by
    cases hc : removeByIdL cs id with
    | some cs2 =>
      have : ¬(removeByIdL cs id = none) := by simp [hc]
      rw [removeByIdL_eq_none_iff] at this
      simp only [not_not] at this
      simp [removeById, hc, strictIds, this]
    | none =>
      have h1 := (removeByIdL_eq_none_iff cs id).mp hc
      simp [removeById, hc, strictIds, h1]

theorem removeByIdL_eq_none_iff : ∀ (cs : List BTree) (id : Nat),
    removeByIdL cs id = none ↔ id ∉ allIdsL cs
  | [], id => by simp [removeByIdL, allIdsL]
  | c :: cs, id => by
    by_cases h : idOf c = id
    · constructor
      · intro hc
        simp [removeByIdL, h] at hc
      · intro hmem
        exfalso
        apply hmem
        simp [allIdsL, allIds_eq_cons c, h]
    · cases hc : removeById c id with
      | some c2 =>
        have : ¬(removeById c id = none) := by simp [hc]
        rw [removeById_eq_none_iff] at this
        simp only [not_not] at this
        constructor
        · intro hcontra
          simp [removeByIdL, h, hc] at hcontra
        · intro hmem
          exfalso
          apply hmem
          simp [allIdsL, allIds_eq_cons c]
          right; left; exact this
      | none =>
        have h1 := (removeById_eq_none_iff c id).mp hc
        have h2 := removeByIdL_eq_none_iff cs id
        have hne : ¬id = idOf c := fun e => h e.symm
        cases hcs : removeByIdL cs id with
        | some cs2 =>
          have : ¬(removeByIdL cs id = none) := by simp [hcs]
          rw [h2] at this
          simp only [not_not] at this
          simp [removeByIdL, h, hc, hcs, allIdsL, allIds_eq_cons c]
          tauto
        | none =>
          have h3 := h2.mp hcs
          simp [removeByIdL, h, hc, hcs, allIdsL, allIds_eq_cons c]
          tauto

end

theorem allIdsL_insertAt (i : Nat) (nd : BTree) (cs : List BTree) (a : Nat) :
    a ∈ allIdsL (insertAt i nd cs) ↔ a ∈ allIds nd ∨ a ∈ allIdsL cs := by
  induction i generalizing cs with
  | zero =>
    cases cs <;> simp [insertAt, allIdsL]
  | succ n ih =>
    cases cs with
    | nil => simp [insertAt, allIdsL]
    | cons c cs => simp [insertAt, allIdsL, ih] ; tauto

theorem allIdsL_insertChild (idx : Option Nat) (nd : BTree) (cs : List BTree) (a : Nat) :
    a ∈ allIdsL (insertChild idx nd cs) ↔ a ∈ allIds nd ∨ a ∈ allIdsL cs := by
  cases idx with
  | none =>
    induction cs with
    | nil => simp [insertChild, allIdsL]
    | cons c cs ih =>
      simp [insertChild, allIdsL] at ih ⊢
      tauto
  | some i => exact allIdsL_insertAt i nd cs a

mutual

theorem allIds_insertUnder : ∀ (t : BTree) (p : Nat) (idx : Option Nat) (nd t2 : BTree),
    insertUnder t p idx nd = some t2 →
    ∀ a, a ∈ allIds t2 ↔ a ∈ allIds t ∨ a ∈ allIds nd
  | .bookmark _ _ _, p, idx, nd, t2 => by simp [insertUnder]
  | .folder i ti cs, p, idx, nd, t2 => by
    intro h a
    by_cases hip : i = p
    · subst hip
      simp [insertUnder] at h
      subst h
      simp [allIds, allIdsL_insertChild]
      tauto
    · simp [insertUnder, hip] at h
      cases hcs : insertUnderL cs p idx nd with
      | some cs2 =>
        rw [hcs] at h
        simp at h
        subst h
        simp [allIds, allIdsL_insertUnder cs p idx nd cs2 hcs]
        tauto
      | none => rw [hcs] at h; simp at h

theorem allIdsL_insertUnder : ∀ (cs : List BTree) (p : Nat) (idx : Option Nat)
    (nd : BTree) (cs2 : List BTree),
    insertUnderL cs p idx nd = some cs2 →
    ∀ a, a ∈ allIdsL cs2 ↔ a ∈ allIdsL cs ∨ a ∈ allIds nd
  | [], p, idx, nd, cs2 => by simp [insertUnderL]
  | c :: cs, p, idx, nd, cs2 => by
    intro h a
    cases hc : insertUnder c p idx nd with
    | some c2 =>
      simp [insertUnderL, hc] at h
      subst h
      simp [allIdsL, allIds_insertUnder c p idx nd c2 hc]
      tauto
    | none =>
      simp [insertUnderL, hc] at h
      cases hcs : insertUnderL cs p idx nd with
      | some cs3 =>
        rw [hcs] at h
        simp at h
        subst h
        simp [allIdsL, allIdsL_insertUnder cs p idx nd cs3 hcs]
        tauto
      | none => rw [hcs] at h; simp at h

end

mutual

theorem allIds_removeById : ∀ (t : BTree) (id : Nat) (t2 : BTree),
    removeById t id = some t2 → ∀ a, a ∈ allIds t2 → a ∈ allIds t
  | .bookmark _ _ _, id, t2 => by simp [removeById]
  | .folder i ti cs, id, t2 => by
    intro h a ha
    cases hcs : removeByIdL cs id with
    | some cs2 =>
      simp [removeById, hcs] at h
      subst h
      simp [allIds] at ha ⊢
      rcases ha with h1 | h1
      · left; exact h1
      · right; exact allIdsL_removeById cs id cs2 hcs a h1
    | none => simp [removeById, hcs] at h

theorem allIdsL_removeById : ∀ (cs : List BTree) (id : Nat) (cs2 : List BTree),
    removeByIdL cs id = some cs2 → ∀ a, a ∈ allIdsL cs2 → a ∈ allIdsL cs
  | [], id, cs2 => by simp [removeByIdL]
  | c :: cs, id, cs2 => by
    intro h a ha
    by_cases hid : idOf c = id
    · simp [removeByIdL, hid] at h
      subst h
      simp [allIdsL]
      tauto
    · simp [removeByIdL, hid] at h
      cases hc : removeById c id with
      | some c2 =>
        rw [hc] at h
        simp at h
        subst h
        simp [allIdsL] at ha ⊢
        rcases ha with h1 | h1
        · left; exact allIds_removeById c id c2 hc a h1
        · right; exact h1
      | none =>
        rw [hc] at h
        cases hcs : removeByIdL cs id with
        | some cs3 =>
          rw [hcs] at h
          simp at h
          subst h
          simp [allIdsL] at ha ⊢
          rcases ha with h1 | h1
          · left; exact h1
          · right; exact allIdsL_removeById cs id cs3 hcs a h1
        | none => rw [hcs] at h; simp at h

end

mutual

theorem insertUnder_eq_none_of_not_mem : ∀ (t : BTree) (p : Nat) (idx : Option Nat)
    (nd : BTree), p ∉ allIds t → insertUnder t p idx nd = none
  | .bookmark _ _ _, p, idx, nd => by simp [insertUnder]
  | .folder i ti cs, p, idx, nd => by
    intro hp
    simp [allIds] at hp
    have h1 : ¬i = p := fun e => hp.1 e.symm
    simp [insertUnder, h1, insertUnderL_eq_none_of_not_mem cs p idx nd hp.2]

theorem insertUnderL_eq_none_of_not_mem : ∀ (cs : List BTree) (p : Nat)
    (idx : Option Nat) (nd : BTree), p ∉ allIdsL cs → insertUnderL cs p idx nd = none
  | [], p, idx, nd => by simp [insertUnderL]
  | c :: cs, p, idx, nd => by
    intro hp
    simp [allIdsL] at hp
    simp [insertUnderL, insertUnder_eq_none_of_not_mem c p idx nd hp.1,
      insertUnderL_eq_none_of_not_mem cs p idx nd hp.2]

end

mutual

theorem insertUnder_isSome_congr : ∀ (t : BTree) (p : Nat) (idx idx2 : Option Nat)
    (nd nd2 : BTree),
    (insertUnder t p idx nd).isSome = (insertUnder t p idx2 nd2).isSome
  | .bookmark _ _ _, p, idx, idx2, nd, nd2 => by simp [insertUnder]
  | .folder i ti cs, p, idx, idx2, nd, nd2 => by
    by_cases hip : i = p
    · simp [insertUnder, hip]
    · have := insertUnderL_isSome_congr cs p idx idx2 nd nd2
      cases h1 : insertUnderL cs p idx nd <;> cases h2 : insertUnderL cs p idx2 nd2 <;>
        simp [insertUnder, hip, h1, h2] <;> simp [h1, h2] at this

theorem insertUnderL_isSome_congr : ∀ (cs : List BTree) (p : Nat) (idx idx2 : Option Nat)
    (nd nd2 : BTree),
    (insertUnderL cs p idx nd).isSome = (insertUnderL cs p idx2 nd2).isSome
  | [], p, idx, idx2, nd, nd2 => by simp [insertUnderL]
  | c :: cs, p, idx, idx2, nd, nd2 => by
    have ht := insertUnder_isSome_congr c p idx idx2 nd nd2
    have hl := insertUnderL_isSome_congr cs p idx idx2 nd nd2
    cases h1 : insertUnder c p idx nd <;> cases h2 : insertUnder c p idx2 nd2 <;>
      simp [h1, h2] at ht <;> simp [insertUnderL, h1, h2]
    · cases h3 : insertUnderL cs p idx nd <;> cases h4 : insertUnderL cs p idx2 nd2 <;>
        simp [h3, h4] at hl <;> simp [h3, h4]

end

/-- Whether inserting under `p` can succeed in this tree (`p` resolves to a
folder); by `insertUnder_isSome_congr` this does not depend on the payload. -/
def canInsert (t : BTree) (p : Nat) : Bool :=
  (insertUnder t p (some 0) (.bookmark 0 "" "")).isSome

mutual

theorem locate_parent_mem : ∀ (t : BTree) (id p i : Nat) (sub : BTree),
    locate t id = some (p, i, sub) → p ∈ allIds t
  | .bookmark _ _ _, id, p, i, sub => by simp [locate]
  | .folder g ti cs, id, p, i, sub => by
    intro h
    simp only [locate] at h
    rcases locateL_parent_mem g 0 cs id p i sub h with h1 | h1
    · simp [allIds, h1]
    · simp [allIds, h1]

theorem locateL_parent_mem : ∀ (g k : Nat) (cs : List BTree) (id p i : Nat) (sub : BTree),
    locateL g k cs id = some (p, i, sub) → p = g ∨ p ∈ allIdsL cs
  | g, k, [], id, p, i, sub => by simp [locateL]
  | g, k, c :: cs, id, p, i, sub => by
    intro h
    by_cases hid : idOf c = id
    · simp [locateL, hid] at h
      left
      exact h.1.symm
    · simp only [locateL, hid, if_false] at h
      cases hc : locate c id with
      | some r =>
        rw [hc] at h
        simp at h
        subst h
        right
        simp [allIdsL]
        left
        exact locate_parent_mem c id p i sub hc
      | none =>
        rw [hc] at h
        rcases locateL_parent_mem g (k + 1) cs id p i sub h with h1 | h1
        · left; exact h1
        · right; simp [allIdsL, h1]

end

theorem locate_id_mem_strict (t : BTree) (id p i : Nat) (sub : BTree)
    (h : locate t id = some (p, i, sub)) : id ∈ strictIds t := by
  by_contra hmem
  rw [← locate_eq_none_iff] at hmem
  simp [hmem] at h

theorem findSub_self (c : BTree) (id : Nat) (h : idOf c = id) : findSub c id = some c := by
  cases c <;> simp [idOf] at h <;> simp [findSub, h]

mutual

theorem findSub_of_locate : ∀ (t : BTree) (id p i : Nat) (sub : BTree),
    locate t id = some (p, i, sub) → (allIds t).Nodup → findSub t id = some sub
  | .bookmark _ _ _, id, p, i, sub => by simp [locate]
  | .folder g ti cs, id, p, i, sub => by
    intro h hnd
    simp only [locate] at h
    simp only [allIds, List.nodup_cons] at hnd
    have hidm : id ∈ allIdsL cs := by
      by_contra hmem
      rw [← locateL_eq_none_iff g 0] at hmem
      simp [hmem] at h
    have hgid : ¬g = id := fun e => hnd.1 (e ▸ hidm)
    simp only [findSub, hgid, if_false]
    exact findSubL_of_locateL g 0 cs id p i sub h hnd.2

theorem findSubL_of_locateL : ∀ (g k : Nat) (cs : List BTree) (id p i : Nat) (sub : BTree),
    locateL g k cs id = some (p, i, sub) → (allIdsL cs).Nodup → findSubL cs id = some sub
  | g, k, [], id, p, i, sub => by simp [locateL]
  | g, k, c :: cs, id, p, i, sub => by
    intro h hnd
    simp only [allIdsL, List.nodup_append] at hnd
    by_cases hid : idOf c = id
    · simp [locateL, hid] at h
      obtain ⟨h1, h2, h3⟩ := h
      subst h3
      simp [findSubL, findSub_self c id hid]
    · simp only [locateL, hid, if_false] at h
      cases hc : locate c id with
      | some r =>
        rw [hc] at h
        simp at h
        subst h
        have := findSub_of_locate c id p i sub hc hnd.1
        simp [findSubL, this]
      | none =>
        rw [hc] at h
        have hnone : findSub c id = none := by
          rw [findSub_eq_none_iff, allIds_eq_cons]
          simp
          constructor
          · exact fun e => hid e.symm
          · rw [← locate_eq_none_iff]
            exact hc
        simp only [findSubL, hnone]
        exact findSubL_of_locateL g (k + 1) cs id p i sub h hnd.2.1

end

mutual

theorem strip_reify : ∀ (n : Nat) (node : BTree), strip (reify n node).1 = strip node
  | n, .bookmark _ t u => by simp [reify, strip]
  | n, .folder _ t cs => by simp [reify, strip, stripL_reifyL (n + 1) cs]

theorem stripL_reifyL : ∀ (n : Nat) (cs : List BTree), stripL (reifyL n cs).1 = stripL cs
  | n, [] => by simp [reifyL, stripL]
  | n, c :: cs => by
    simp [reifyL, stripL, strip_reify n c, stripL_reifyL (reify n c).2 cs]

end

mutual

theorem reify_bounds : ∀ (n : Nat) (node : BTree),
    n < (reify n node).2 ∧ ∀ a ∈ allIds (reify n node).1, n ≤ a ∧ a < (reify n node).2
  | n, .bookmark _ t u => by simp [reify, allIds]
  | n, .folder _ t cs => by
    have h := reifyL_bounds (n + 1) cs
    simp only [reify, allIds]
    constructor
    · omega
    · intro a ha
      simp at ha
      rcases ha with h1 | h1
      · omega
      · have := h.2 a h1
        omega

theorem reifyL_bounds : ∀ (n : Nat) (cs : List BTree),
    n ≤ (reifyL n cs).2 ∧ ∀ a ∈ allIdsL (reifyL n cs).1, n ≤ a ∧ a < (reifyL n cs).2
  | n, [] => by simp [reifyL, allIdsL]
  | n, c :: cs => by
    have h1 := reify_bounds n c
    have h2 := reifyL_bounds (reify n c).2 cs
    simp only [reifyL, allIdsL]
    constructor
    · omega
    · intro a ha
      simp at ha
      rcases ha with hm | hm
      · have := h1.2 a hm
        omega
      · have := h2.2 a hm
        omega

end

theorem insertAt_length_append : ∀ (cs : List BTree) (x : BTree),
    insertAt cs.length x cs = cs ++ [x] := by
  intro cs x
  induction cs with
  | nil => simp [insertAt]
  | cons c cs ih => simp [insertAt, ih]

theorem stripL_append (a b : List BTree) : stripL (a ++ b) = stripL a ++ stripL b := by
  induction a with
  | nil => simp [stripL]
  | cons c cs ih => simp [stripL, ih]

mutual

theorem replace_strip : ∀ (t : BTree) (id p i : Nat) (sub : BTree),
    (allIds t).Nodup → locate t id = some (p, i, sub) →
    ∃ t1, removeById t id = some t1 ∧
      ∀ x, strip x = strip sub →
        ∃ t2, insertUnder t1 p (some i) x = some t2 ∧ strip t2 = strip t
  | .bookmark _ _ _, id, p, i, sub => by simp [locate]
  | .folder g tt cs, id, p, i, sub => by
    intro hnd h
    simp only [locate] at h
    simp only [allIds, List.nodup_cons] at hnd
    obtain ⟨cs1, hrm, hins⟩ := replaceL_strip cs g 0 id p i sub hnd.2 hnd.1 h
    refine ⟨.folder g tt cs1, by simp [removeById, hrm], ?_⟩
    intro x hx
    obtain ⟨hpeq, hpne⟩ := hins x hx
    by_cases hgp : p = g
    · subst hgp
      obtain ⟨j, hij, hstr⟩ := hpeq rfl
      have hj : i = j := by omega
      subst hj
      refine ⟨.folder p tt (insertAt i x cs1), ?_, ?_⟩
      · simp [insertUnder, insertChild]
      · simp [strip, hstr]
    · obtain ⟨cs2, hic, hstr⟩ := hpne hgp
      have hgp2 : ¬g = p := fun e => hgp e.symm
      refine ⟨.folder g tt cs2, ?_, ?_⟩
      · simp [insertUnder, hgp2, hic]
      · simp [strip, hstr]

theorem replaceL_strip : ∀ (cs : List BTree) (g k id p i : Nat) (sub : BTree),
    (allIdsL cs).Nodup → g ∉ allIdsL cs → locateL g k cs id = some (p, i, sub) →
    ∃ cs1, removeByIdL cs id = some cs1 ∧
      ∀ x, strip x = strip sub →
        ((p = g → ∃ j, i = k + j ∧ stripL (insertAt j x cs1) = stripL cs) ∧
         (p ≠ g → ∃ cs2, insertUnderL cs1 p (some i) x = some cs2 ∧
            stripL cs2 = stripL cs))
  | [], g, k, id, p, i, sub => by simp [locateL]
  | c :: cs, g, k, id, p, i, sub => by
    intro hnd hg h
    simp only [allIdsL, List.nodup_append] at hnd
    simp only [allIdsL, List.mem_append] at hg
    push_neg at hg
    by_cases hid : idOf c = id
    · simp [locateL, hid] at h
      obtain ⟨h1, h2, h3⟩ := h
      subst h1
      subst h2
      subst h3
      refine ⟨cs, by simp [removeByIdL, hid], ?_⟩
      intro x hx
      constructor
      · intro _
        exact ⟨0, by omega, by simp [insertAt, stripL, hx]⟩
      · intro hne
        exact absurd rfl hne
    · simp only [locateL, hid, if_false] at h
      cases hc : locate c id with
      | some r =>
        rw [hc] at h
        simp at h
        subst h
        obtain ⟨c1, hrmc, hinsc⟩ := replace_strip c id p i sub hnd.1 hc
        refine ⟨c1 :: cs, by simp [removeByIdL, hid, hrmc], ?_⟩
        intro x hx
        have hpmem : p ∈ allIds c := locate_parent_mem c id p i sub hc
        have hpg : p ≠ g := fun e => hg.1 (e ▸ hpmem)
        constructor
        · intro he
          exact absurd he hpg
        · intro _
          obtain ⟨c2, hic, hstr⟩ := hinsc x hx
          exact ⟨c2 :: cs, by simp [insertUnderL, hic], by simp [stripL, hstr]⟩
      | none =>
        rw [hc] at h
        obtain ⟨cs1, hrm, hins⟩ := replaceL_strip cs g (k + 1) id p i sub hnd.2.1 hg.2 h
        have hrc : removeById c id = none := by
          rw [removeById_eq_none_iff]
          rw [← locate_eq_none_iff]
          exact hc
        refine ⟨c :: cs1, by simp [removeByIdL, hid, hrc, hrm], ?_⟩
        intro x hx
        obtain ⟨hpeq, hpne⟩ := hins x hx
        constructor
        · intro he
          obtain ⟨j, hij, hstr⟩ := hpeq he
          exact ⟨j + 1, by omega, by simp [insertAt, stripL, hstr]⟩
        · intro hne
          obtain ⟨cs2, hic, hstr⟩ := hpne hne
          have hpcs : p ∈ allIdsL cs := by
            rcases locateL_parent_mem g (k + 1) cs id p i sub h with h1 | h1
            · exact absurd h1 hne
            · exact h1
          have hpc : p ∉ allIds c := fun hm => hnd.2.2 hm hpcs
          have hnonec : insertUnder c p (some i) x = none :=
            insertUnder_eq_none_of_not_mem c p (some i) x hpc
          exact ⟨c :: cs2, by simp [insertUnderL, hnonec, hic], by simp [stripL, hstr]⟩

end

theorem insertUnder_isSome_of_canInsert (t : BTree) (p : Nat) (idx : Option Nat)
    (nd : BTree) (h : canInsert t p = true) : (insertUnder t p idx nd).isSome := by
  unfold canInsert at h
  rw [insertUnder_isSome_congr t p idx (some 0) nd (.bookmark 0 "" "")]
  exact h

theorem insertUnder_self_folder (g : Nat) (tt : String) (ds : List BTree) (j : Nat)
    (x : BTree) :
    insertUnder (.folder g tt ds) g (some j) x = some (.folder g tt (insertAt j x ds)) := by
  simp [insertUnder, insertChild]

theorem insertUnderL_insertAt_self (g : Nat) (tt : String) (ds : List BTree) (j : Nat)
    (x : BTree) : ∀ (i : Nat) (cs : List BTree), g ∉ allIdsL cs →
    insertUnderL (insertAt i (.folder g tt ds) cs) g (some j) x
      = some (insertAt i (.folder g tt (insertAt j x ds)) cs) := by
  intro i
  induction i with
  | zero =>
    intro cs hg
    simp [insertAt, insertUnderL, insertUnder_self_folder]
  | succ n ih =>
    intro cs hg
    cases cs with
    | nil => simp [insertAt, insertUnderL, insertUnder_self_folder]
    | cons c cs =>
      simp only [allIdsL, List.mem_append] at hg
      push_neg at hg
      have hc : insertUnder c g (some j) x = none :=
        insertUnder_eq_none_of_not_mem c g (some j) x hg.1
      simp [insertAt, insertUnderL, hc, ih cs hg.2]

theorem insertUnderL_append_self (g : Nat) (tt : String) (ds : List BTree) (j : Nat)
    (x : BTree) : ∀ (cs : List BTree), g ∉ allIdsL cs →
    insertUnderL (cs ++ [.folder g tt ds]) g (some j) x
      = some (cs ++ [.folder g tt (insertAt j x ds)]) := by
  intro cs
  induction cs with
  | nil =>
    intro _
    simp [insertUnderL, insertUnder_self_folder]
  | cons c cs ih =>
    intro hg
    simp only [allIdsL, List.mem_append] at hg
    push_neg at hg
    have hc : insertUnder c g (some j) x = none :=
      insertUnder_eq_none_of_not_mem c g (some j) x hg.1
    simp [insertUnderL, hc, ih hg.2]

mutual

theorem insertUnder_fresh : ∀ (t : BTree) (p : Nat) (idx : Option Nat) (g : Nat)
    (tt : String) (ds : List BTree) (t1 : BTree),
    insertUnder t p idx (.folder g tt ds) = some t1 → g ∉ allIds t →
    ∀ (j : Nat) (x : BTree),
      insertUnder t1 g (some j) x = insertUnder t p idx (.folder g tt (insertAt j x ds))
  | .bookmark _ _ _, p, idx, g, tt, ds, t1 => by simp [insertUnder]
  | .folder a ta cs, p, idx, g, tt, ds, t1 => by
    intro h hg j x
    simp only [allIds, List.mem_cons] at hg
    push_neg at hg
    have hag : ¬a = g := fun e => hg.1 e.symm
    by_cases hap : a = p
    · subst hap
      simp only [insertUnder, if_pos rfl] at h
      have ht1 : t1 = .folder a ta (insertChild idx (.folder g tt ds) cs) := by
        exact (Option.some.inj h).symm
      subst ht1
      cases idx with
      | none =>
        simp only [insertUnder, hag, if_false, if_pos rfl, insertChild]
        rw [insertUnderL_append_self g tt ds j x cs hg.2]
        simp
      | some i =>
        simp only [insertUnder, hag, if_false, if_pos rfl, insertChild]
        rw [insertUnderL_insertAt_self g tt ds j x i cs hg.2]
        simp
    · have hap2 : ¬a = p := hap
      simp only [insertUnder, hap2, if_false] at h
      cases hcs : insertUnderL cs p idx (.folder g tt ds) with
      | some cs1 =>
        rw [hcs] at h
        simp at h
        subst h
        have hlist := insertUnderL_fresh cs p idx g tt ds cs1 hcs hg.2 j x
        simp only [insertUnder, hag, if_false, hap2]
        rw [hlist]
      | none => rw [hcs] at h; simp at h

theorem insertUnderL_fresh : ∀ (cs : List BTree) (p : Nat) (idx : Option Nat) (g : Nat)
    (tt : String) (ds : List BTree) (cs1 : List BTree),
    insertUnderL cs p idx (.folder g tt ds) = some cs1 → g ∉ allIdsL cs →
    ∀ (j : Nat) (x : BTree),
      insertUnderL cs1 g (some j) x = insertUnderL cs p idx (.folder g tt (insertAt j x ds))
  | [], p, idx, g, tt, ds, cs1 => by simp [insertUnderL]
  | c :: cs, p, idx, g, tt, ds, cs1 => by
    intro h hg j x
    simp only [allIdsL, List.mem_append] at hg
    push_neg at hg
    cases hc : insertUnder c p idx (.folder g tt ds) with
    | some c1 =>
      simp only [insertUnderL, hc] at h
      have hcs1 : cs1 = c1 :: cs := (Option.some.inj h).symm
      subst hcs1
      have htree := insertUnder_fresh c p idx g tt ds c1 hc hg.1 j x
      have hsome : (insertUnder c p idx (.folder g tt (insertAt j x ds))).isSome := by
        rw [insertUnder_isSome_congr c p idx idx (.folder g tt (insertAt j x ds))
          (.folder g tt ds), hc]
        rfl
      cases h2 : insertUnder c p idx (.folder g tt (insertAt j x ds)) with
      | some c2 =>
        rw [h2] at htree
        simp [insertUnderL, htree, h2]
      | none => rw [h2] at hsome; simp at hsome
    | none =>
      simp only [insertUnderL, hc] at h
      cases hcs : insertUnderL cs p idx (.folder g tt ds) with
      | some cs2 =>
        rw [hcs] at h
        simp at h
        subst h
        have hcnone : insertUnder c g (some j) x = none :=
          insertUnder_eq_none_of_not_mem c g (some j) x hg.1
        have hcnone2 : insertUnder c p idx (.folder g tt (insertAt j x ds)) = none := by
          have := insertUnder_isSome_congr c p idx idx (.folder g tt (insertAt j x ds))
            (.folder g tt ds)
          rw [hc] at this
          simp at this
          exact Option.eq_none_of_isNone (by simp [this])
        have hlist := insertUnderL_fresh cs p idx g tt ds cs2 hcs hg.2 j x
        simp only [insertUnderL, hcnone, hcnone2]
        rw [hlist]
      | none => rw [hcs] at h; simp at h

end

theorem allIdsL_append (a b : List BTree) : allIdsL (a ++ b) = allIdsL a ++ allIdsL b := by
  induction a with
  | nil => simp [allIdsL]
  | cons c cs ih => simp [allIdsL, ih]

theorem reifyL_cons_fst (m : Nat) (c : BTree) (cs : List BTree) :
    (reifyL m (c :: cs)).1 = (reify m c).1 :: (reifyL (reify m c).2 cs).1 := by
  simp [reifyL]

theorem reifyL_cons_snd (m : Nat) (c : BTree) (cs : List BTree) :
    (reifyL m (c :: cs)).2 = (reifyL (reify m c).2 cs).2 := by
  simp [reifyL]

mutual

theorem restore_eq : ∀ (node t : BTree) (m p i : Nat),
    canInsert t p = true → (∀ a ∈ allIds t, a < m) →
    ∃ t2, insertUnder t p (some i) (reify m node).1 = some t2 ∧
      restoreBookmarkTree ⟨t, m⟩ node p i = (⟨t2, (reify m node).2⟩, some m)
  | .bookmark _ ti u, t, m, p, i => by
    intro hcan hlt
    have hsome := insertUnder_isSome_of_canInsert t p (some i) (.bookmark m ti u) hcan
    cases h2 : insertUnder t p (some i) (.bookmark m ti u) with
    | some t2 =>
      refine ⟨t2, by simp [reify, h2], ?_⟩
      simp [restoreBookmarkTree, bmCreate, reify, h2]
    | none => rw [h2] at hsome; simp at hsome
  | .folder _ ti cs, t, m, p, i => by
    intro hcan hlt
    have hsome := insertUnder_isSome_of_canInsert t p (some i) (.folder m ti []) hcan
    cases h1 : insertUnder t p (some i) (.folder m ti []) with
    | some t1 =>
      have hch := restoreChildren_eq cs t p (some i) m ti [] (m + 1) t1 h1
        (fun a ha => Nat.lt_succ_of_lt (hlt a ha)) (Nat.lt_succ_self m)
        (by simp [allIdsL]) (fun hm => by have := hlt m hm; omega)
      obtain ⟨t2, hins, hrun⟩ := hch
      simp only [List.nil_append] at hins
      refine ⟨t2, ?_, ?_⟩
      · simp [reify, hins]
      · simp only [restoreBookmarkTree, bmCreate, h1]
        simp only [List.length_nil] at hrun
        simp [hrun, reify]
    | none => rw [h1] at hsome; simp at hsome

theorem restoreChildren_eq : ∀ (cs : List BTree) (t : BTree) (p : Nat)
    (idx : Option Nat) (g : Nat) (tt : String) (ds : List BTree) (m : Nat) (t1 : BTree),
    insertUnder t p idx (.folder g tt ds) = some t1 →
    (∀ a ∈ allIds t, a < m) → g < m → (∀ a ∈ allIdsL ds, a < m) → g ∉ allIds t →
    ∃ t2, insertUnder t p idx (.folder g tt (ds ++ (reifyL m cs).1)) = some t2 ∧
      restoreChildren ⟨t1, m⟩ cs g ds.length = (⟨t2, (reifyL m cs).2⟩, true)
  | [], t, p, idx, g, tt, ds, m, t1 => by
    intro h hlt hgm hds hg
    refine ⟨t1, by simp [reifyL, h], by simp [restoreChildren, reifyL]⟩
  | c :: rest, t, p, idx, g, tt, ds, m, t1 => by
    intro h hlt hgm hds hg
    have hcan1 : canInsert t1 g = true := by
      unfold canInsert
      rw [insertUnder_fresh t p idx g tt ds t1 h hg 0 (.bookmark 0 "" "")]
      exact insertUnder_isSome_of_canInsert t p idx _ (by
        unfold canInsert
        rw [insertUnder_isSome_congr t p (some 0) idx (.bookmark 0 "" "") (.folder g tt ds),
          h]
        rfl)
    have hlt1 : ∀ a ∈ allIds t1, a < m := by
      intro a ha
      rcases (allIds_insertUnder t p idx (.folder g tt ds) t1 h a).mp ha with h1 | h1
      · exact hlt a h1
      · simp [allIds] at h1
        rcases h1 with h1 | h1
        · omega
        · exact hds a h1
    obtain ⟨u, huins, hurun⟩ := restore_eq c t1 m g ds.length hcan1 hlt1
    have hbounds := reify_bounds m c
    have huins2 : insertUnder t p idx (.folder g tt (ds ++ [(reify m c).1])) = some u := by
      rw [← insertAt_length_append ds (reify m c).1]
      rw [← insertUnder_fresh t p idx g tt ds t1 h hg ds.length (reify m c).1]
      exact huins
    have hih := restoreChildren_eq rest t p idx g tt (ds ++ [(reify m c).1])
      (reify m c).2 u huins2
      (fun a ha => Nat.lt_of_lt_of_le (hlt a ha) (Nat.le_of_lt hbounds.1))
      (Nat.lt_of_lt_of_le hgm (Nat.le_of_lt hbounds.1))
      (by
        intro a ha
        rw [allIdsL_append, List.mem_append] at ha
        rcases ha with h1 | h1
        · exact Nat.lt_of_lt_of_le (hds a h1) (Nat.le_of_lt hbounds.1)
        · simp [allIdsL] at h1
          exact (hbounds.2 a h1).2)
      hg
    obtain ⟨t2, hins2, hrun2⟩ := hih
    refine ⟨t2, ?_, ?_⟩
    · rw [reifyL_cons_fst]
      rw [show ds ++ (reify m c).1 :: (reifyL (reify m c).2 rest).1
        = (ds ++ [(reify m c).1]) ++ (reifyL (reify m c).2 rest).1 by simp]
      exact hins2
    · rw [reifyL_cons_snd]
      simp only [restoreChildren, hurun]
      simp only [List.length_append, List.length_cons, List.length_nil] at hrun2
      exact hrun2

end

theorem pushUndoAction_getLast (st : List UndoAction) (a : UndoAction) :
    (pushUndoAction st a).getLast? = some a := by
  unfold pushUndoAction
  by_cases h : (st ++ [a]).length > MAX_UNDO_STACK_SIZE
  · simp only [h, if_pos]
    cases st with
    | nil => simp [MAX_UNDO_STACK_SIZE] at h
    | cons b bs =>
      simp only [List.cons_append, List.drop_succ_cons, List.drop_zero]
      exact List.getLast?_concat _
  · simp only [h, if_neg, ite_false]
    exact List.getLast?_concat _

theorem canInsert_of_insertUnder_some (t : BTree) (p : Nat) (idx : Option Nat)
    (nd t2 : BTree) (h : insertUnder t p idx nd = some t2) : canInsert t p = true := by
  unfold canInsert
  rw [insertUnder_isSome_congr t p (some 0) idx (.bookmark 0 "" "") nd, h]
  rfl

/-- Claim C1 core: deleting any node (bookmark or folder subtree) and then
undoing once yields a tree whose stripped view (titles, urls, relative
sibling order; ids ignored) equals the pre-delete tree, with the success
toast of the restore. -/
theorem deleteItem_undo_restores (s : Store) (stack : List UndoAction) (id p i : Nat)
    (sub : BTree) (hwf : WF s) (hloc : locate s.tree id = some (p, i, sub)) :
    strip (performUndo (deleteItem s stack id true).1
        (deleteItem s stack id true).2).1.tree = strip s.tree ∧
    (performUndo (deleteItem s stack id true).1 (deleteItem s stack id true).2).2.2
      = .success ("Restored \"" ++ titleOf sub ++ "\"") := by
  obtain ⟨hnd, hlt⟩ := hwf
  obtain ⟨t1, hrm, hins⟩ := replace_strip s.tree id p i sub hnd hloc
  have hx : strip (reify s.nextId sub).1 = strip sub := strip_reify _ _
  obtain ⟨t2, hins2, hstr2⟩ := hins _ hx
  have hdel : deleteItem s stack id true
      = (⟨t1, s.nextId⟩, pushUndoAction stack (.delete sub p i)) := by
    unfold deleteItem
    rw [hloc]
    simp only [if_pos rfl]
    cases hu : urlOf sub with
    | some u =>
      have hfind : findSub s.tree id = some sub := findSub_of_locate _ _ _ _ _ hloc hnd
      cases sub with
      | bookmark bi bt bu =>
        simp [hu, bmRemove, hfind, hrm]
      | folder fi ft fcs => simp [urlOf] at hu
    | none =>
      simp [hu, bmRemoveTree, hrm]
  rw [hdel]
  have hcan : canInsert t1 p := canInsert_of_insertUnder_some t1 p (some i) _ t2 hins2
  have hlt1 : ∀ a ∈ allIds t1, a < s.nextId :=
    fun a ha => hlt a (allIds_removeById s.tree id t1 hrm a ha)
  obtain ⟨t2x, hins2x, hrun⟩ := restore_eq sub t1 s.nextId p i hcan hlt1
  have ht2 : t2x = t2 := by
    rw [hins2] at hins2x
    exact (Option.some.inj hins2x).symm
  subst ht2
  simp only [performUndo, pushUndoAction_getLast]
  simp only [applyUndo, hrun]
  exact ⟨hstr2, trivial⟩

/-- Witness for C1: a concrete store (a folder with one bookmark inside,
next to an empty folder) where deleting the folder with id 1 and undoing
restores the stripped tree. -/
theorem deleteItem_undo_restores_witness :
    WF ⟨.folder 0 "root" [.folder 1 "A" [.bookmark 2 "b" "u"], .folder 3 "B" []], 4⟩ ∧
    locate (BTree.folder 0 "root" [.folder 1 "A" [.bookmark 2 "b" "u"],
        .folder 3 "B" []]) 1 = some (0, 0, .folder 1 "A" [.bookmark 2 "b" "u"]) ∧
    (strip (performUndo
        (deleteItem ⟨.folder 0 "root" [.folder 1 "A" [.bookmark 2 "b" "u"],
          .folder 3 "B" []], 4⟩ [] 1 true).1
        (deleteItem ⟨.folder 0 "root" [.folder 1 "A" [.bookmark 2 "b" "u"],
          .folder 3 "B" []], 4⟩ [] 1 true).2).1.tree
      = strip (BTree.folder 0 "root" [.folder 1 "A" [.bookmark 2 "b" "u"],
          .folder 3 "B" []]) ∧
     (performUndo
        (deleteItem ⟨.folder 0 "root" [.folder 1 "A" [.bookmark 2 "b" "u"],
          .folder 3 "B" []], 4⟩ [] 1 true).1
        (deleteItem ⟨.folder 0 "root" [.folder 1 "A" [.bookmark 2 "b" "u"],
          .folder 3 "B" []], 4⟩ [] 1 true).2).2.2
      = .success ("Restored \"" ++ titleOf (.folder 1 "A" [.bookmark 2 "b" "u"]) ++ "\"")) :=
  ⟨by decide, by decide,
    deleteItem_undo_restores _ [] 1 0 0 (.folder 1 "A" [.bookmark 2 "b" "u"])
      (by decide) (by decide)⟩


theorem pushUndoAction_eq (st : List UndoAction) (a : UndoAction) :
    pushUndoAction st a
      = if (st ++ [a]).length > MAX_UNDO_STACK_SIZE then (st ++ [a]).drop 1
        else st ++ [a] := rfl

theorem pushUndoAction_foldl : ∀ (l st : List UndoAction),
    st.length ≤ MAX_UNDO_STACK_SIZE →
    List.foldl pushUndoAction st l
      = (st ++ l).drop (st.length + l.length - MAX_UNDO_STACK_SIZE) := by
  intro l
  induction l with
  | nil =>
    intro st h
    simp only [MAX_UNDO_STACK_SIZE] at h
    have h0 : st.length + List.length ([] : List UndoAction) - MAX_UNDO_STACK_SIZE = 0 := by
      simp only [List.length_nil, MAX_UNDO_STACK_SIZE]
      omega
    simp only [List.foldl_nil, List.append_nil, h0, List.drop_zero]
  | cons a l ih =>
    intro st h
    simp only [List.foldl_cons]
    by_cases h50 : st.length = MAX_UNDO_STACK_SIZE
    · have h50n : st.length = 50 := by simpa [MAX_UNDO_STACK_SIZE] using h50
      have hcond : (st ++ [a]).length > MAX_UNDO_STACK_SIZE := by
        simp only [List.length_append, List.length_cons, List.length_nil,
          MAX_UNDO_STACK_SIZE]
        omega
      rw [pushUndoAction_eq, if_pos hcond]
      have hlen : ((st ++ [a]).drop 1).length = MAX_UNDO_STACK_SIZE := by
        simp only [List.length_drop, List.length_append, List.length_cons,
          List.length_nil, MAX_UNDO_STACK_SIZE]
        omega
      rw [ih _ (le_of_eq hlen)]
      rw [hlen]
      have hd : (st ++ [a]).drop 1 ++ l = ((st ++ [a]) ++ l).drop 1 := by
        rw [List.drop_append_of_le_length (by simp : 1 ≤ (st ++ [a]).length)]
      rw [hd, List.drop_drop]
      have e1 : (st ++ [a]) ++ l = st ++ (a :: l) := by simp
      rw [e1]
      congr 1
      simp only [List.length_cons, MAX_UNDO_STACK_SIZE]
      omega
    · have hlt : st.length < MAX_UNDO_STACK_SIZE := lt_of_le_of_ne h h50
      have hltn : st.length < 50 := by simpa [MAX_UNDO_STACK_SIZE] using hlt
      have hcond : ¬((st ++ [a]).length > MAX_UNDO_STACK_SIZE) := by
        simp only [List.length_append, List.length_cons, List.length_nil,
          MAX_UNDO_STACK_SIZE]
        omega
      rw [pushUndoAction_eq, if_neg hcond]
      have hlen : (st ++ [a]).length ≤ MAX_UNDO_STACK_SIZE := by
        simp only [List.length_append, List.length_cons, List.length_nil,
          MAX_UNDO_STACK_SIZE]
        omega
      rw [ih _ hlen]
      have e1 : (st ++ [a]) ++ l = st ++ (a :: l) := by simp
      rw [e1]
      congr 1
      simp only [List.length_append, List.length_cons, List.length_nil]
      omega

theorem performUndo_stack_eq_dropLast (s : Store) (stack : List UndoAction) :
    (performUndo s stack).2.1 = stack.dropLast := by
  unfold performUndo
  cases h : stack.getLast? with
  | none =>
    have : stack = [] := List.getLast?_eq_none_iff.mp h
    subst this
    rfl
  | some a =>
    dsimp only
    cases happ : applyUndo s a with
    | mk s1 r =>
      cases r <;> rfl

theorem performUndoN_drain : ∀ (n : Nat) (s : Store) (stack : List UndoAction),
    stack.length = n → (performUndoN n (s, stack)).2 = [] := by
  intro n
  induction n with
  | zero =>
    intro s stack h
    rw [List.length_eq_zero] at h
    subst h
    rfl
  | succ n ih =>
    intro s stack h
    show (performUndoN n _).2 = []
    apply ih
    rw [performUndo_stack_eq_dropLast]
    simp [List.length_dropLast, h]

/-- Claim C2: the undo log is a bounded LIFO stack of capacity 50 — push
appends and evicts from the front past 50 entries; pushing 60 actions keeps
exactly the 50 most recent in order; undoing 50 times empties the stack;
an undo on the empty stack leaves the store untouched and reports the
"Nothing to undo" notice. -/
theorem undo_stack_bounded :
    (∀ (st : List UndoAction) (a : UndoAction), st.length < MAX_UNDO_STACK_SIZE →
      pushUndoAction st a = st ++ [a]) ∧
    (∀ (st : List UndoAction) (a : UndoAction), st.length = MAX_UNDO_STACK_SIZE →
      pushUndoAction st a = st.drop 1 ++ [a]) ∧
    (∀ l : List UndoAction, l.length = 60 →
      List.foldl pushUndoAction [] l = l.drop 10) ∧
    (∀ (s : Store) (stack : List UndoAction), stack.length = 50 →
      (performUndoN 50 (s, stack)).2 = []) ∧
    (∀ s : Store, performUndo s [] = (s, [], .nothingToUndo)) := by
  refine ⟨?_, ?_, ?_, ?_, ?_⟩
  · intro st a h
    have hltn : st.length < 50 := by simpa [MAX_UNDO_STACK_SIZE] using h
    have hcond : ¬((st ++ [a]).length > MAX_UNDO_STACK_SIZE) := by
      simp only [List.length_append, List.length_cons, List.length_nil,
        MAX_UNDO_STACK_SIZE]
      omega
    rw [pushUndoAction_eq, if_neg hcond]
  · intro st a h
    have h50n : st.length = 50 := by simpa [MAX_UNDO_STACK_SIZE] using h
    have hcond : (st ++ [a]).length > MAX_UNDO_STACK_SIZE := by
      simp only [List.length_append, List.length_cons, List.length_nil,
        MAX_UNDO_STACK_SIZE]
      omega
    rw [pushUndoAction_eq, if_pos hcond]
    rw [List.drop_append_of_le_length (by omega : 1 ≤ st.length)]
  · intro l hl
    have := pushUndoAction_foldl l [] (by simp [MAX_UNDO_STACK_SIZE])
    simp only [List.nil_append, List.length_nil, Nat.zero_add] at this
    rw [this, hl]
    rfl
  · intro s stack h
    exact performUndoN_drain 50 s stack h
  · intro s
    rfl

/-- Witness for C2 at concrete stacks. -/
theorem undo_stack_bounded_witness :
    pushUndoAction ([] : List UndoAction) (.create 0) = [] ++ [.create 0] ∧
    pushUndoAction (List.replicate 50 (UndoAction.create 0)) (.create 1)
      = (List.replicate 50 (UndoAction.create 0)).drop 1 ++ [.create 1] ∧
    List.foldl pushUndoAction [] (List.replicate 60 (UndoAction.create 0))
      = (List.replicate 60 (UndoAction.create 0)).drop 10 ∧
    (performUndoN 50 (⟨.folder 0 "" [], 1⟩, List.replicate 50 (UndoAction.create 0))).2
      = [] ∧
    performUndo ⟨.folder 0 "" [], 1⟩ [] = (⟨.folder 0 "" [], 1⟩, [], .nothingToUndo) :=
  ⟨undo_stack_bounded.1 [] (.create 0) (by simp [MAX_UNDO_STACK_SIZE]),
   undo_stack_bounded.2.1 _ (.create 1) (by simp [MAX_UNDO_STACK_SIZE]),
   undo_stack_bounded.2.2.1 _ (by simp),
   undo_stack_bounded.2.2.2.1 _ _ (by simp),
   undo_stack_bounded.2.2.2.2 _⟩

/-- Claim C6: an undo on a non-empty stack pops the most recent action
first; when the inverse store operation fails (for instance because the
target id no longer resolves), the popped action is discarded — the stack
has shrunk by exactly one entry, the remaining entries are unchanged, and a
failure notice replaces the success one. -/
theorem undo_failure_discards :
    (∀ (s : Store) (st : List UndoAction) (a : UndoAction),
      (performUndo s (st ++ [a])).2.1 = st) ∧
    (∀ (s : Store) (st : List UndoAction) (a : UndoAction) (s1 : Store),
      applyUndo s a = (s1, none) →
      performUndo s (st ++ [a]) = (s1, st, .failure)) ∧
    (∀ (s : Store) (id op oi : Nat), containsId s.tree id = false →
      applyUndo s (.move id op oi) = (s, none)) := by
  refine ⟨?_, ?_, ?_⟩
  · intro s st a
    rw [performUndo_stack_eq_dropLast, List.dropLast_concat]
  · intro s st a s1 happ
    unfold performUndo
    rw [List.getLast?_concat]
    dsimp only
    rw [happ, List.dropLast_concat]
  · intro s id op oi h
    have hfind : findSub s.tree id = none := by
      unfold containsId at h
      cases hf : findSub s.tree id with
      | some r => rw [hf] at h; simp at h
      | none => rfl
    have hmem : id ∉ allIds s.tree := (findSub_eq_none_iff _ _).mp hfind
    have hloc : locate s.tree id = none := by
      rw [locate_eq_none_iff]
      intro hs
      apply hmem
      rw [allIds_eq_cons]
      exact List.mem_cons_of_mem _ hs
    simp [applyUndo, bmMove, hloc]

/-- Witness for C6: undoing a `move` of an id that is not in the store. -/
theorem undo_failure_discards_witness :
    (performUndo ⟨.folder 0 "" [], 1⟩ ([] ++ [.move 5 0 0])).2.1 = [] ∧
    applyUndo ⟨.folder 0 "" [], 1⟩ (.move 5 0 0) = (⟨.folder 0 "" [], 1⟩, none) ∧
    performUndo ⟨.folder 0 "" [], 1⟩ ([] ++ [.move 5 0 0])
      = (⟨.folder 0 "" [], 1⟩, [], .failure) :=
  ⟨undo_failure_discards.1 _ [] (.move 5 0 0),
   undo_failure_discards.2.2 ⟨.folder 0 "" [], 1⟩ 5 0 0 (by decide),
   undo_failure_discards.2.1 _ [] (.move 5 0 0) _
     (undo_failure_discards.2.2 ⟨.folder 0 "" [], 1⟩ 5 0 0 (by decide))⟩

/-- Initial store of the end-to-end scenario of C3: the default top-level
folders, empty. -/
def c3Initial : Store :=
  ⟨.folder 0 "root" [.folder 1 "Bookmarks bar" [], .folder 2 "Other bookmarks" []], 3⟩

/-- Step 1 of the scenario: create folder "Test" in pane 1's current
folder (id 1), pushing a `create` action. -/
def c3AfterCreate : Store × List UndoAction × Option Nat :=
  confirmNewFolder c3Initial [] 1 "Test"

/-- Step 2: delete the just-created "Test" folder (id 3), pushing a
`delete` action capturing its empty subtree. -/
def c3AfterDelete : Store × List UndoAction :=
  deleteItem c3AfterCreate.1 c3AfterCreate.2.1 3 true

/-- Step 3: first undo (pops the `delete`, recreates "Test" — with a new
id). -/
def c3AfterUndo1 : Store × List UndoAction × UndoOutcome :=
  performUndo c3AfterDelete.1 c3AfterDelete.2

/-- Step 4: second undo (pops the `create`, whose recorded id no longer
exists). -/
def c3AfterUndo2 : Store × List UndoAction × UndoOutcome :=
  performUndo c3AfterUndo1.1 c3AfterUndo1.2.1

/-- Counterexample to C3 as stated: after create("Test") → delete →
undo → undo, the tree does NOT return to its original state (not even up to
ids): the recreated "Test" folder survives, because the popped `create`
action records the original id 3 while the restore created a fresh id 4,
so the inverse delete fails.  The undo stack does end up empty. -/
theorem c3_scenario_counterexample :
    c3AfterUndo2.1.tree ≠ c3Initial.tree ∧
    strip c3AfterUndo2.1.tree ≠ strip c3Initial.tree ∧
    c3AfterUndo2.2.1 = [] := by decide

/-- Amended C3: the scenario runs as claimed up to the second undo — the
first undo restores "Test" (new id 4) and pops the stack to the lone
`create` entry — but the second undo fails (the created id 3 no longer
resolves), leaving the recreated "Test" folder in the tree; the stack is
empty and a failure notice is shown instead of a completed inverse. -/
theorem c3_scenario_amended :
    c3AfterCreate.2.2 = some 3 ∧
    c3AfterCreate.1.tree = .folder 0 "root"
      [.folder 1 "Bookmarks bar" [.folder 3 "Test" []], .folder 2 "Other bookmarks" []] ∧
    c3AfterCreate.2.1 = [.create 3] ∧
    c3AfterDelete.1.tree = c3Initial.tree ∧
    c3AfterDelete.2 = [.create 3, .delete (.folder 3 "Test" []) 1 0] ∧
    c3AfterUndo1.2.2 = .success ("Restored \"Test\"") ∧
    c3AfterUndo1.1.tree = .folder 0 "root"
      [.folder 1 "Bookmarks bar" [.folder 4 "Test" []], .folder 2 "Other bookmarks" []] ∧
    c3AfterUndo1.2.1 = [.create 3] ∧
    c3AfterUndo2.2.2 = .failure ∧
    c3AfterUndo2.1.tree = c3AfterUndo1.1.tree ∧
    c3AfterUndo2.2.1 = [] := by decide

/-- Claim C4: drop position classification is a pure function of the
pointer's vertical ratio within the target's bounding box — folders split
before/into/after at 1/4 and 3/4, bookmarks split before/after at 1/2 —
with the worked examples for box top=100, height=40. -/
theorem drop_position_classification :
    (∀ clientY top height : ℚ,
      ((clientY - top) / height < 1 / 4 →
        getDropPosition true clientY top height = .before) ∧
      ((clientY - top) / height > 3 / 4 →
        getDropPosition true clientY top height = .after) ∧
      (1 / 4 ≤ (clientY - top) / height → (clientY - top) / height ≤ 3 / 4 →
        getDropPosition true clientY top height = .into)) ∧
    (∀ clientY top height : ℚ,
      ((clientY - top) / height < 1 / 2 →
        getDropPosition false clientY top height = .before) ∧
      (1 / 2 ≤ (clientY - top) / height →
        getDropPosition false clientY top height = .after)) ∧
    getDropPosition true 105 100 40 = .before ∧
    getDropPosition true 120 100 40 = .into ∧
    getDropPosition true 138 100 40 = .after ∧
    getDropPosition false 115 100 40 = .before ∧
    getDropPosition false 130 100 40 = .after := by
  refine ⟨?_, ?_, by norm_num [getDropPosition], by norm_num [getDropPosition],
    by norm_num [getDropPosition], by norm_num [getDropPosition],
    by norm_num [getDropPosition]⟩
  · intro clientY top height
    have he : getDropPosition true clientY top height
        = if (clientY - top) / height < 1 / 4 then .before
          else if (clientY - top) / height > 3 / 4 then .after else .into := rfl
    refine ⟨?_, ?_, ?_⟩
    · intro h
      rw [he, if_pos h]
    · intro h
      have h2 : ¬((clientY - top) / height < 1 / 4) := by linarith
      rw [he, if_neg h2, if_pos h]
    · intro h1 h2
      have h3 : ¬((clientY - top) / height < 1 / 4) := by linarith
      have h4 : ¬((clientY - top) / height > 3 / 4) := by linarith
      rw [he, if_neg h3, if_neg h4]
  · intro clientY top height
    have he : getDropPosition false clientY top height
        = if (clientY - top) / height < 1 / 2 then .before else .after := rfl
    refine ⟨?_, ?_⟩
    · intro h
      rw [he, if_pos h]
    · intro h
      have h2 : ¬((clientY - top) / height < 1 / 2) := by linarith
      rw [he, if_neg h2]

/-- Witness for C4: the general folder/bookmark rules applied at the
worked sample points. -/
theorem drop_position_classification_witness :
    getDropPosition true 105 100 40 = .before ∧
    getDropPosition false 130 100 40 = .after :=
  ⟨(drop_position_classification.1 105 100 40).1 (by norm_num),
   (drop_position_classification.2.1 130 100 40).2 (by norm_num)⟩

/-- Claim C5: the drop handler's reorder destination index — the target's
index, plus one for an `after` drop, minus one when moving within the same
parent from a strictly lower original index (computed against the already
adjusted target index) — with the two worked same-parent examples. -/
theorem reorder_index_arithmetic :
    (∀ p oi ti : Nat,
      reorderDestIndex .after p p oi ti = if oi < ti + 1 then ti else ti + 1) ∧
    (∀ p oi ti : Nat,
      reorderDestIndex .before p p oi ti = if oi < ti then ti - 1 else ti) ∧
    (∀ p q oi ti : Nat, p ≠ q →
      reorderDestIndex .before p q oi ti = ti ∧
      reorderDestIndex .after p q oi ti = ti + 1) ∧
    reorderDestIndex .after 7 7 2 5 = 5 ∧
    reorderDestIndex .before 7 7 4 1 = 1 := by
  refine ⟨?_, ?_, ?_, by decide, by decide⟩
  · intro p oi ti
    by_cases h : oi < ti + 1 <;> simp [reorderDestIndex, h]
  · intro p oi ti
    by_cases h : oi < ti <;> simp [reorderDestIndex, h]
  · intro p q oi ti hpq
    constructor <;> simp [reorderDestIndex, hpq]

/-- Witness for C5: a cross-parent reorder keeps the unadjusted index. -/
theorem reorder_index_arithmetic_witness :
    reorderDestIndex .before 0 1 2 3 = 3 ∧ reorderDestIndex .after 0 1 2 3 = 4 :=
  reorder_index_arithmetic.2.2.1 0 1 2 3 (by decide)


theorem probeOffsets_cons (f : Int × Int → Option String) (x y : Int) (ex : String)
    (dx dy : Int) (rest : List (Int × Int)) :
    probeOffsets f x y ex ((dx, dy) :: rest)
      = match f (x + dx, y + dy) with
        | some cid => if cid ≠ ex then some cid else probeOffsets f x y ex rest
        | none => probeOffsets f x y ex rest := rfl

theorem probeOffsets_eq_some : ∀ (l : List (Int × Int)) (f : Int × Int → Option String)
    (x y : Int) (ex r : String), probeOffsets f x y ex l = some r →
    r ≠ ex ∧ ∃ k dx dy, l[k]? = some (dx, dy) ∧ f (x + dx, y + dy) = some r ∧
      ∀ (j : Nat) (dx2 dy2 : Int), j < k → l[j]? = some (dx2, dy2) →
        ∀ c, f (x + dx2, y + dy2) = some c → c = ex := by
  intro l
  induction l with
  | nil => intro f x y ex r h; simp [probeOffsets] at h
  | cons hd rest ih =>
    intro f x y ex r h
    obtain ⟨dx, dy⟩ := hd
    rw [probeOffsets_cons] at h
    cases hf : f (x + dx, y + dy) with
    | some cid =>
      rw [hf] at h
      dsimp only at h
      by_cases hc : cid = ex
      · rw [if_neg (not_not_intro hc)] at h
        obtain ⟨hne, k, dx3, dy3, hk, hfk, hmin⟩ := ih f x y ex r h
        refine ⟨hne, k + 1, dx3, dy3, by simpa using hk, hfk, ?_⟩
        intro j dx2 dy2 hj hget c hfc
        cases j with
        | zero =>
          simp at hget
          obtain ⟨e1, e2⟩ := hget
          subst e1
          subst e2
          rw [hf] at hfc
          rw [← Option.some.inj hfc, hc]
        | succ j2 =>
          simp at hget
          exact hmin j2 dx2 dy2 (by omega) (by simpa using hget) c hfc
      · rw [if_pos hc] at h
        have hr : cid = r := Option.some.inj h
        subst hr
        refine ⟨hc, 0, dx, dy, by simp, hf, ?_⟩
        intro j dx2 dy2 hj
        omega
    | none =>
      rw [hf] at h
      dsimp only at h
      obtain ⟨hne, k, dx3, dy3, hk, hfk, hmin⟩ := ih f x y ex r h
      refine ⟨hne, k + 1, dx3, dy3, by simpa using hk, hfk, ?_⟩
      intro j dx2 dy2 hj hget c hfc
      cases j with
      | zero =>
        simp at hget
        obtain ⟨e1, e2⟩ := hget
        subst e1
        subst e2
        rw [hf] at hfc
        exact absurd hfc (by simp)
      | succ j2 =>
        simp at hget
        exact hmin j2 dx2 dy2 (by omega) (by simpa using hget) c hfc

theorem probeOffsets_eq_none : ∀ (l : List (Int × Int)) (f : Int × Int → Option String)
    (x y : Int) (ex : String), probeOffsets f x y ex l = none ↔
    ∀ (k : Nat) (dx dy : Int), l[k]? = some (dx, dy) → ∀ c, f (x + dx, y + dy) = some c → c = ex := by
  intro l
  induction l with
  | nil =>
    intro f x y ex
    simp [probeOffsets]
  | cons hd rest ih =>
    intro f x y ex
    obtain ⟨dx, dy⟩ := hd
    rw [probeOffsets_cons]
    constructor
    · intro h k dx2 dy2 hget c hfc
      cases hf : f (x + dx, y + dy) with
      | some cid =>
        rw [hf] at h
        dsimp only at h
        by_cases hc : cid = ex
        · rw [if_neg (not_not_intro hc)] at h
          cases k with
          | zero =>
            simp at hget
            obtain ⟨e1, e2⟩ := hget
            subst e1
            subst e2
            rw [hf] at hfc
            rw [← Option.some.inj hfc, hc]
          | succ k2 =>
            simp at hget
            exact (ih f x y ex).mp h k2 dx2 dy2 (by simpa using hget) c hfc
        · rw [if_pos hc] at h
          simp at h
      | none =>
        rw [hf] at h
        dsimp only at h
        cases k with
        | zero =>
          simp at hget
          obtain ⟨e1, e2⟩ := hget
          subst e1
          subst e2
          rw [hf] at hfc
          exact absurd hfc (by simp)
        | succ k2 =>
          simp at hget
          exact (ih f x y ex).mp h k2 dx2 dy2 (by simpa using hget) c hfc
    · intro h
      cases hf : f (x + dx, y + dy) with
      | some cid =>
        have hcid : cid = ex := h 0 dx dy (by simp) cid hf
        dsimp only
        rw [if_neg (not_not_intro hcid)]
        rw [ih f x y ex]
        intro k dx2 dy2 hget c hfc
        exact h (k + 1) dx2 dy2 (by simpa using hget) c hfc
      | none =>
        dsimp only
        rw [ih f x y ex]
        intro k dx2 dy2 hget c hfc
        exact h (k + 1) dx2 dy2 (by simpa using hget) c hfc

/-- Claim C7: the nearby-drop-target probe uses a fixed offset sequence —
center, 12px cross, 12px diagonals, 24px cross (13 points in the popup
script), the full-page script appending a 24px diagonal ring (17 points) —
and returns the candidate at the first probe point whose id differs from
the excluded dragged id; with no such probe point, resolution fails. -/
theorem findNearbyDropTarget_spec :
    searchOffsetsPopup
      = [(0, 0)] ++ [(0, -12), (0, 12), (-12, 0), (12, 0)]
        ++ [(-12, -12), (12, -12), (-12, 12), (12, 12)]
        ++ [(0, -24), (0, 24), (-24, 0), (24, 0)] ∧
    searchOffsetsPopup.length = 13 ∧
    searchOffsets = searchOffsetsPopup ++ [(-24, -24), (24, -24), (-24, 24), (24, 24)] ∧
    searchOffsets.length = 17 ∧
    (∀ (f : Int × Int → Option String) (x y : Int) (ex r : String),
      findNearbyDropTarget f x y ex = some r →
      r ≠ ex ∧ ∃ k dx dy, searchOffsets[k]? = some (dx, dy) ∧
        f (x + dx, y + dy) = some r ∧
        ∀ (j : Nat) (dx2 dy2 : Int), j < k → searchOffsets[j]? = some (dx2, dy2) →
          ∀ c, f (x + dx2, y + dy2) = some c → c = ex) ∧
    (∀ (f : Int × Int → Option String) (x y : Int) (ex : String),
      findNearbyDropTarget f x y ex = none ↔
      ∀ (k : Nat) (dx dy : Int), searchOffsets[k]? = some (dx, dy) →
        ∀ c, f (x + dx, y + dy) = some c → c = ex) ∧
    (∀ (f : Int × Int → Option String) (x y : Int) (ex r : String),
      findNearbyDropTargetPopup f x y ex = some r →
      r ≠ ex ∧ ∃ k dx dy, searchOffsetsPopup[k]? = some (dx, dy) ∧
        f (x + dx, y + dy) = some r ∧
        ∀ (j : Nat) (dx2 dy2 : Int), j < k → searchOffsetsPopup[j]? = some (dx2, dy2) →
          ∀ c, f (x + dx2, y + dy2) = some c → c = ex) ∧
    (∀ (f : Int × Int → Option String) (x y : Int) (ex : String),
      findNearbyDropTargetPopup f x y ex = none ↔
      ∀ (k : Nat) (dx dy : Int), searchOffsetsPopup[k]? = some (dx, dy) →
        ∀ c, f (x + dx, y + dy) = some c → c = ex) := by
  refine ⟨by decide, by decide, by decide, by decide, ?_, ?_, ?_, ?_⟩
  · intro f x y ex r h
    exact probeOffsets_eq_some searchOffsets f x y ex r h
  · intro f x y ex
    exact probeOffsets_eq_none searchOffsets f x y ex
  · intro f x y ex r h
    exact probeOffsets_eq_some searchOffsetsPopup f x y ex r h
  · intro f x y ex
    exact probeOffsets_eq_none searchOffsetsPopup f x y ex

/-- Witness for C7: a probe over a uniform candidate field resolves (at
the first offset); the no-valid-candidate characterization instantiated. -/
theorem findNearbyDropTarget_spec_witness :
    ("a" ≠ "b" ∧ ∃ k dx dy, searchOffsets[k]? = some (dx, dy) ∧
      (fun (_ : Int × Int) => some "a") (0 + dx, 0 + dy) = some "a" ∧
      ∀ (j : Nat) (dx2 dy2 : Int), j < k → searchOffsets[j]? = some (dx2, dy2) →
        ∀ c, (fun (_ : Int × Int) => some "a") (0 + dx2, 0 + dy2) = some c → c = "b") ∧
    (findNearbyDropTarget (fun (_ : Int × Int) => some "b") 0 0 "b" = none ↔
      ∀ (k : Nat) (dx dy : Int), searchOffsets[k]? = some (dx, dy) →
        ∀ c, (fun (_ : Int × Int) => some "b") (0 + dx, 0 + dy) = some c → c = "b") :=
  ⟨findNearbyDropTarget_spec.2.2.2.2.1 (fun _ => some "a") 0 0 "b" "a" (by decide),
   findNearbyDropTarget_spec.2.2.2.2.2.1 (fun _ => some "b") 0 0 "b"⟩

/-- Claim C8: confirming a rename whose (trimmed) new title equals the
item's current title is a complete no-op — no store update, no pushed undo
action, store and stack exactly as before. -/
theorem confirmRename_noop (s : Store) (stack : List UndoAction) (id : Nat)
    (rawInput : String) (node : BTree) (hfind : findSub s.tree id = some node)
    (htitle : titleOf node = jsTrim rawInput) :
    (confirmRename s stack id rawInput).1 = s ∧
    (confirmRename s stack id rawInput).2.1 = stack ∧
    (confirmRename s stack id rawInput).2.2 ≠ .renamed := by
  unfold confirmRename
  by_cases he : jsTrim rawInput = ""
  · simp [he]
  · simp [he, hfind, htitle]

/-- Witness for C8: renaming bookmark 1 to its current title "b". -/
theorem confirmRename_noop_witness :
    (confirmRename ⟨.folder 0 "root" [.bookmark 1 "b" "u"], 2⟩ [] 1 "b").1
      = ⟨.folder 0 "root" [.bookmark 1 "b" "u"], 2⟩ ∧
    (confirmRename ⟨.folder 0 "root" [.bookmark 1 "b" "u"], 2⟩ [] 1 "b").2.1 = [] ∧
    (confirmRename ⟨.folder 0 "root" [.bookmark 1 "b" "u"], 2⟩ [] 1 "b").2.2
      ≠ .renamed :=
  confirmRename_noop _ [] 1 "b" (.bookmark 1 "b" "u") (by decide) (by decide)

theorem navigatePane_true_eq (p : PaneState) (f : String) :
    navigatePane p f true
      = ⟨f, p.history.take (p.historyIndex + 1) ++ [f],
          (p.history.take (p.historyIndex + 1) ++ [f]).length - 1, []⟩ := rfl

theorem navigatePane_false_eq (p : PaneState) (f : String) :
    navigatePane p f false = { p with currentFolderId := f, selectedItems := [] } := rfl

theorem paneValid_navigatePane_true (p : PaneState) (f : String) :
    paneValid (navigatePane p f true) := by
  rw [navigatePane_true_eq]
  unfold paneValid
  simp

theorem paneValid_applyNavOp (parentOf : String → Option String) (p : PaneState)
    (op : NavOp) (h : paneValid p) : paneValid (applyNavOp parentOf p op) := by
  cases op with
  | navigate f add =>
    cases add with
    | true => exact paneValid_navigatePane_true p f
    | false => exact h
  | back =>
    unfold applyNavOp paneBack
    by_cases hb : 0 < p.historyIndex
    · rw [if_pos hb, navigatePane_false_eq]
      unfold paneValid at h ⊢
      simp only
      omega
    · rw [if_neg hb]
      exact h
  | forward =>
    unfold applyNavOp paneForward
    by_cases hb : p.historyIndex + 1 < p.history.length
    · rw [if_pos hb, navigatePane_false_eq]
      unfold paneValid at h ⊢
      simp only
      omega
    · rw [if_neg hb]
      exact h
  | up =>
    unfold applyNavOp paneUp
    by_cases hr : p.currentFolderId ≠ "0"
    · rw [if_pos hr]
      cases parentOf p.currentFolderId with
      | some q => exact paneValid_navigatePane_true p q
      | none => exact h
    · rw [if_neg hr]
      exact h

/-- Claim C9: over every sequence of navigation operations the pane's
`historyIndex` stays a valid index into `history`; navigating with
`addToHistory` clears the selection, truncates the history to
`historyIndex + 1`, appends the new folder id and points `historyIndex` at
the last entry; back and forward move `historyIndex` by one (under their
guards) without mutating the history sequence. -/
theorem pane_history_invariant :
    (∀ (parentOf : String → Option String) (p : PaneState) (ops : List NavOp),
      paneValid p → paneValid (applyNavOps parentOf p ops)) ∧
    (∀ (p : PaneState) (f : String),
      (navigatePane p f true).selectedItems = [] ∧
      (navigatePane p f true).currentFolderId = f ∧
      (navigatePane p f true).history = p.history.take (p.historyIndex + 1) ++ [f] ∧
      (navigatePane p f true).historyIndex
        = (navigatePane p f true).history.length - 1) ∧
    (∀ p : PaneState, (paneBack p).history = p.history ∧
      (0 < p.historyIndex → (paneBack p).historyIndex = p.historyIndex - 1)) ∧
    (∀ p : PaneState, (paneForward p).history = p.history ∧
      (p.historyIndex + 1 < p.history.length →
        (paneForward p).historyIndex = p.historyIndex + 1)) := by
  refine ⟨?_, ?_, ?_, ?_⟩
  · intro parentOf p ops
    induction ops generalizing p with
    | nil => intro h; exact h
    | cons op rest ih =>
      intro h
      exact ih _ (paneValid_applyNavOp parentOf p op h)
  · intro p f
    rw [navigatePane_true_eq]
    exact ⟨rfl, rfl, rfl, rfl⟩
  · intro p
    unfold paneBack
    by_cases hb : 0 < p.historyIndex
    · rw [if_pos hb, navigatePane_false_eq]
      exact ⟨rfl, fun _ => rfl⟩
    · rw [if_neg hb]
      exact ⟨rfl, fun hc => absurd hc hb⟩
  · intro p
    unfold paneForward
    by_cases hb : p.historyIndex + 1 < p.history.length
    · rw [if_pos hb, navigatePane_false_eq]
      exact ⟨rfl, fun _ => rfl⟩
    · rw [if_neg hb]
      exact ⟨rfl, fun hc => absurd hc hb⟩

/-- Witness for C9: a concrete session — navigate to "2", back, forward —
starting from pane state ⟨"1", ["1"], 0, ∅⟩. -/
theorem pane_history_invariant_witness :
    paneValid (applyNavOps (fun _ => none) ⟨"1", ["1"], 0, []⟩
      [.navigate "2" true, .back, .forward]) ∧
    (paneBack ⟨"2", ["1", "2"], 1, []⟩).history = ["1", "2"] ∧
    (paneBack ⟨"2", ["1", "2"], 1, []⟩).historyIndex = 1 - 1 ∧
    (paneForward ⟨"1", ["1", "2"], 0, []⟩).historyIndex = 0 + 1 :=
  ⟨pane_history_invariant.1 (fun _ => none) ⟨"1", ["1"], 0, []⟩
      [.navigate "2" true, .back, .forward] (by decide),
   (pane_history_invariant.2.2.1 ⟨"2", ["1", "2"], 1, []⟩).1,
   (pane_history_invariant.2.2.1 ⟨"2", ["1", "2"], 1, []⟩).2 (by decide),
   (pane_history_invariant.2.2.2 ⟨"1", ["1", "2"], 0, []⟩).2 (by decide)⟩

theorem idOf_mem_allIds (c : BTree) : idOf c ∈ allIds c := by
  cases c <;> simp [idOf, allIds]

theorem findSub_eq_none_of_not_mem (c : BTree) (id : Nat) (h : id ∉ allIds c) :
    findSub c id = none := (findSub_eq_none_iff c id).mpr h

theorem removeById_eq_none_of_not_mem (c : BTree) (id : Nat) (h : id ∉ allIds c) :
    removeById c id = none := by
  rw [removeById_eq_none_iff]
  intro hs
  apply h
  rw [allIds_eq_cons]
  exact List.mem_cons_of_mem _ hs

theorem idOf_ne_of_not_mem (c : BTree) (id : Nat) (h : id ∉ allIds c) : ¬idOf c = id :=
  fun e => h (e ▸ idOf_mem_allIds c)

theorem findSubL_insertChild_self (x : BTree) : ∀ (idx : Option Nat) (cs : List BTree),
    idOf x ∉ allIdsL cs → findSubL (insertChild idx x cs) (idOf x) = some x := by
  intro idx
  cases idx with
  | none =>
    intro cs
    induction cs with
    | nil =>
      intro _
      simp [insertChild, findSubL, findSub_self x (idOf x) rfl]
    | cons c cs ih =>
      intro h
      simp only [allIdsL, List.mem_append] at h
      push_neg at h
      simp only [insertChild, List.cons_append, findSubL,
        findSub_eq_none_of_not_mem c (idOf x) h.1]
      simpa [insertChild] using ih h.2
  | some i =>
    induction i with
    | zero =>
      intro cs h
      simp [insertChild, insertAt, findSubL, findSub_self x (idOf x) rfl]
    | succ n ih =>
      intro cs h
      cases cs with
      | nil => simp [insertChild, insertAt, findSubL, findSub_self x (idOf x) rfl]
      | cons c cs =>
        simp only [allIdsL, List.mem_append] at h
        push_neg at h
        simp only [insertChild, insertAt, findSubL,
          findSub_eq_none_of_not_mem c (idOf x) h.1]
        simpa [insertChild] using ih cs h.2

theorem removeByIdL_insertChild_self (x : BTree) : ∀ (idx : Option Nat) (cs : List BTree),
    idOf x ∉ allIdsL cs → removeByIdL (insertChild idx x cs) (idOf x) = some cs := by
  intro idx
  cases idx with
  | none =>
    intro cs
    induction cs with
    | nil =>
      intro _
      simp [insertChild, removeByIdL]
    | cons c cs ih =>
      intro h
      simp only [allIdsL, List.mem_append] at h
      push_neg at h
      have h1 : ¬idOf c = idOf x := idOf_ne_of_not_mem c (idOf x) h.1
      simp only [insertChild, List.cons_append, removeByIdL, h1, if_false,
        removeById_eq_none_of_not_mem c (idOf x) h.1]
      have := ih h.2
      simp only [insertChild] at this
      simp [this]
  | some i =>
    induction i with
    | zero =>
      intro cs h
      simp [insertChild, insertAt, removeByIdL]
    | succ n ih =>
      intro cs h
      cases cs with
      | nil => simp [insertChild, insertAt, removeByIdL]
      | cons c cs =>
        simp only [allIdsL, List.mem_append] at h
        push_neg at h
        have h1 : ¬idOf c = idOf x := idOf_ne_of_not_mem c (idOf x) h.1
        simp only [insertChild, insertAt, removeByIdL, h1, if_false,
          removeById_eq_none_of_not_mem c (idOf x) h.1]
        have := ih cs h.2
        simp only [insertChild] at this
        simp [this]

theorem idOf_insertUnder (t : BTree) (p : Nat) (idx : Option Nat) (x t2 : BTree)
    (h : insertUnder t p idx x = some t2) : idOf t2 = idOf t := by
  cases t with
  | bookmark i ti u => simp [insertUnder] at h
  | folder i ti cs =>
    by_cases hip : i = p
    · subst hip
      simp only [insertUnder, if_pos rfl] at h
      rw [← Option.some.inj h]
      rfl
    · simp only [insertUnder, hip, if_false] at h
      cases hcs : insertUnderL cs p idx x with
      | some cs2 =>
        rw [hcs] at h
        rw [← Option.some.inj h]
        rfl
      | none => rw [hcs] at h; simp at h

mutual

theorem findSub_insertUnder_fresh : ∀ (t : BTree) (p : Nat) (idx : Option Nat)
    (x t2 : BTree), insertUnder t p idx x = some t2 → idOf x ∉ allIds t →
    findSub t2 (idOf x) = some x
  | .bookmark _ _ _, p, idx, x, t2 => by simp [insertUnder]
  | .folder a ta cs, p, idx, x, t2 => by
    intro h hx
    simp only [allIds, List.mem_cons] at hx
    push_neg at hx
    have hax : ¬a = idOf x := fun e => hx.1 e.symm
    by_cases hap : a = p
    · subst hap
      simp only [insertUnder, if_pos rfl] at h
      rw [← Option.some.inj h]
      simp only [findSub, hax, if_false]
      exact findSubL_insertChild_self x idx cs hx.2
    · simp only [insertUnder, hap, if_false] at h
      cases hcs : insertUnderL cs p idx x with
      | some cs2 =>
        rw [hcs] at h
        rw [← Option.some.inj h]
        simp only [findSub, hax, if_false]
        exact findSubL_insertUnder_fresh cs p idx x cs2 hcs hx.2
      | none => rw [hcs] at h; simp at h

theorem findSubL_insertUnder_fresh : ∀ (cs : List BTree) (p : Nat) (idx : Option Nat)
    (x : BTree) (cs2 : List BTree), insertUnderL cs p idx x = some cs2 →
    idOf x ∉ allIdsL cs → findSubL cs2 (idOf x) = some x
  | [], p, idx, x, cs2 => by simp [insertUnderL]
  | c :: cs, p, idx, x, cs2 => by
    intro h hx
    simp only [allIdsL, List.mem_append] at hx
    push_neg at hx
    cases hc : insertUnder c p idx x with
    | some c1 =>
      simp only [insertUnderL, hc] at h
      rw [← Option.some.inj h]
      simp only [findSubL, findSub_insertUnder_fresh c p idx x c1 hc hx.1]
    | none =>
      simp only [insertUnderL, hc] at h
      cases hcs : insertUnderL cs p idx x with
      | some cs3 =>
        rw [hcs] at h
        rw [← Option.some.inj h]
        simp only [findSubL, findSub_eq_none_of_not_mem c (idOf x) hx.1]
        exact findSubL_insertUnder_fresh cs p idx x cs3 hcs hx.2
      | none => rw [hcs] at h; simp at h

end

mutual

theorem removeById_insertUnder_fresh : ∀ (t : BTree) (p : Nat) (idx : Option Nat)
    (x t2 : BTree), insertUnder t p idx x = some t2 → idOf x ∉ allIds t →
    removeById t2 (idOf x) = some t
  | .bookmark _ _ _, p, idx, x, t2 => by simp [insertUnder]
  | .folder a ta cs, p, idx, x, t2 => by
    intro h hx
    simp only [allIds, List.mem_cons] at hx
    push_neg at hx
    by_cases hap : a = p
    · subst hap
      simp only [insertUnder, if_pos rfl] at h
      rw [← Option.some.inj h]
      simp only [removeById, removeByIdL_insertChild_self x idx cs hx.2]
    · simp only [insertUnder, hap, if_false] at h
      cases hcs : insertUnderL cs p idx x with
      | some cs2 =>
        rw [hcs] at h
        rw [← Option.some.inj h]
        simp only [removeById,
          removeByIdL_insertUnder_fresh cs p idx x cs2 hcs hx.2]
      | none => rw [hcs] at h; simp at h

theorem removeByIdL_insertUnder_fresh : ∀ (cs : List BTree) (p : Nat) (idx : Option Nat)
    (x : BTree) (cs2 : List BTree), insertUnderL cs p idx x = some cs2 →
    idOf x ∉ allIdsL cs → removeByIdL cs2 (idOf x) = some cs
  | [], p, idx, x, cs2 => by simp [insertUnderL]
  | c :: cs, p, idx, x, cs2 => by
    intro h hx
    simp only [allIdsL, List.mem_append] at hx
    push_neg at hx
    cases hc : insertUnder c p idx x with
    | some c1 =>
      simp only [insertUnderL, hc] at h
      rw [← Option.some.inj h]
      have hid : idOf c1 = idOf c := idOf_insertUnder c p idx x c1 hc
      have h1 : ¬idOf c1 = idOf x := by
        rw [hid]
        exact idOf_ne_of_not_mem c (idOf x) hx.1
      simp only [removeByIdL, h1, if_false,
        removeById_insertUnder_fresh c p idx x c1 hc hx.1]
    | none =>
      simp only [insertUnderL, hc] at h
      cases hcs : insertUnderL cs p idx x with
      | some cs3 =>
        rw [hcs] at h
        rw [← Option.some.inj h]
        have h1 : ¬idOf c = idOf x := idOf_ne_of_not_mem c (idOf x) hx.1
        simp only [removeByIdL, h1, if_false,
          removeById_eq_none_of_not_mem c (idOf x) hx.1,
          removeByIdL_insertUnder_fresh cs p idx x cs3 hcs hx.2]
      | none => rw [hcs] at h; simp at h

end

/-- Claim C10: pasting a bookmark recreates its title and url exactly;
pasting a folder creates a single new empty folder titled with the original
title plus " (copy)" and copies none of the children; the pushed `paste`
action records only the created node's id, and undoing the paste removes
exactly that node, leaving the tree exactly as before the paste. -/
theorem pasteItem_spec :
    (∀ (s : Store) (stack : List UndoAction) (cid pf : Nat) (bt bu : String),
      WF s → findSub s.tree cid = some (.bookmark cid bt bu) →
      canInsert s.tree pf = true →
      ∃ t2, insertUnder s.tree pf none (.bookmark s.nextId bt bu) = some t2 ∧
        pasteItem s stack cid pf
          = (⟨t2, s.nextId + 1⟩, pushUndoAction stack (.paste s.nextId), true) ∧
        findSub t2 s.nextId = some (.bookmark s.nextId bt bu) ∧
        (performUndo ⟨t2, s.nextId + 1⟩
          (pushUndoAction stack (.paste s.nextId))).1.tree = s.tree ∧
        (performUndo ⟨t2, s.nextId + 1⟩
          (pushUndoAction stack (.paste s.nextId))).2.2 = .success "Paste undone") ∧
    (∀ (s : Store) (stack : List UndoAction) (cid pf : Nat) (ft : String)
      (cs : List BTree),
      WF s → findSub s.tree cid = some (.folder cid ft cs) →
      canInsert s.tree pf = true →
      ∃ t2, insertUnder s.tree pf none (.folder s.nextId (ft ++ " (copy)") [])
          = some t2 ∧
        pasteItem s stack cid pf
          = (⟨t2, s.nextId + 1⟩, pushUndoAction stack (.paste s.nextId), true) ∧
        findSub t2 s.nextId = some (.folder s.nextId (ft ++ " (copy)") []) ∧
        (performUndo ⟨t2, s.nextId + 1⟩
          (pushUndoAction stack (.paste s.nextId))).1.tree = s.tree ∧
        (performUndo ⟨t2, s.nextId + 1⟩
          (pushUndoAction stack (.paste s.nextId))).2.2 = .success "Paste undone") := by
  constructor
  · intro s stack cid pf bt bu hwf hfind hcan
    have hfresh : s.nextId ∉ allIds s.tree := fun hm => absurd (hwf.2 _ hm) (lt_irrefl _)
    have hsome := insertUnder_isSome_of_canInsert s.tree pf none
      (.bookmark s.nextId bt bu) hcan
    cases h2 : insertUnder s.tree pf none (.bookmark s.nextId bt bu) with
    | none => rw [h2] at hsome; simp at hsome
    | some t2 =>
      have hfind2 : findSub t2 s.nextId = some (.bookmark s.nextId bt bu) :=
        findSub_insertUnder_fresh s.tree pf none (.bookmark s.nextId bt bu) t2 h2 hfresh
      have hrem : removeById t2 s.nextId = some s.tree :=
        removeById_insertUnder_fresh s.tree pf none (.bookmark s.nextId bt bu) t2 h2 hfresh
      refine ⟨t2, rfl, ?_, hfind2, ?_, ?_⟩
      · unfold pasteItem
        rw [hfind]
        simp only [urlOf, titleOf, bmCreate]
        rw [h2]
      · simp only [performUndo, pushUndoAction_getLast]
        simp only [applyUndo, hfind2, urlOf, Option.isSome_some, if_pos,
          bmRemove, hrem]
      · simp only [performUndo, pushUndoAction_getLast]
        simp only [applyUndo, hfind2, urlOf, Option.isSome_some, if_pos,
          bmRemove, hrem]
  · intro s stack cid pf ft cs hwf hfind hcan
    have hfresh : s.nextId ∉ allIds s.tree := fun hm => absurd (hwf.2 _ hm) (lt_irrefl _)
    have hsome := insertUnder_isSome_of_canInsert s.tree pf none
      (.folder s.nextId (ft ++ " (copy)") []) hcan
    cases h2 : insertUnder s.tree pf none (.folder s.nextId (ft ++ " (copy)") []) with
    | none => rw [h2] at hsome; simp at hsome
    | some t2 =>
      have hfind2 : findSub t2 s.nextId = some (.folder s.nextId (ft ++ " (copy)") []) :=
        findSub_insertUnder_fresh s.tree pf none _ t2 h2 hfresh
      have hrem : removeById t2 s.nextId = some s.tree :=
        removeById_insertUnder_fresh s.tree pf none _ t2 h2 hfresh
      refine ⟨t2, rfl, ?_, hfind2, ?_, ?_⟩
      · unfold pasteItem
        rw [hfind]
        simp only [urlOf, titleOf, bmCreate]
        rw [h2]
      · simp only [performUndo, pushUndoAction_getLast]
        simp only [applyUndo, hfind2, urlOf, Option.isSome_none, Bool.false_eq_true,
          if_false, bmRemoveTree, hrem]
      · simp only [performUndo, pushUndoAction_getLast]
        simp only [applyUndo, hfind2, urlOf, Option.isSome_none, Bool.false_eq_true,
          if_false, bmRemoveTree, hrem]

/-- Witness for C10: pasting bookmark 1 and folder 2 into the root of a
concrete store. -/
theorem pasteItem_spec_witness :
    (∃ t2, insertUnder (BTree.folder 0 "root" [.bookmark 1 "t" "u",
        .folder 2 "F" [.bookmark 3 "x" "y"]]) 0 none (.bookmark 4 "t" "u") = some t2 ∧
      pasteItem ⟨.folder 0 "root" [.bookmark 1 "t" "u",
          .folder 2 "F" [.bookmark 3 "x" "y"]], 4⟩ [] 1 0
        = (⟨t2, 4 + 1⟩, pushUndoAction [] (.paste 4), true) ∧
      findSub t2 4 = some (.bookmark 4 "t" "u") ∧
      (performUndo ⟨t2, 4 + 1⟩ (pushUndoAction [] (.paste 4))).1.tree
        = BTree.folder 0 "root" [.bookmark 1 "t" "u",
            .folder 2 "F" [.bookmark 3 "x" "y"]] ∧
      (performUndo ⟨t2, 4 + 1⟩ (pushUndoAction [] (.paste 4))).2.2
        = .success "Paste undone") ∧
    (∃ t2, insertUnder (BTree.folder 0 "root" [.bookmark 1 "t" "u",
        .folder 2 "F" [.bookmark 3 "x" "y"]]) 0 none
          (.folder 4 ("F" ++ " (copy)") []) = some t2 ∧
      pasteItem ⟨.folder 0 "root" [.bookmark 1 "t" "u",
          .folder 2 "F" [.bookmark 3 "x" "y"]], 4⟩ [] 2 0
        = (⟨t2, 4 + 1⟩, pushUndoAction [] (.paste 4), true) ∧
      findSub t2 4 = some (.folder 4 ("F" ++ " (copy)") []) ∧
      (performUndo ⟨t2, 4 + 1⟩ (pushUndoAction [] (.paste 4))).1.tree
        = BTree.folder 0 "root" [.bookmark 1 "t" "u",
            .folder 2 "F" [.bookmark 3 "x" "y"]] ∧
      (performUndo ⟨t2, 4 + 1⟩ (pushUndoAction [] (.paste 4))).2.2
        = .success "Paste undone") :=
  ⟨pasteItem_spec.1 ⟨.folder 0 "root" [.bookmark 1 "t" "u",
      .folder 2 "F" [.bookmark 3 "x" "y"]], 4⟩ [] 1 0 "t" "u"
      (by decide) (by decide) (by decide),
   pasteItem_spec.2 ⟨.folder 0 "root" [.bookmark 1 "t" "u",
      .folder 2 "F" [.bookmark 3 "x" "y"]], 4⟩ [] 2 0 "F" [.bookmark 3 "x" "y"]
      (by decide) (by decide) (by decide)⟩
